import Mathlib

/-!
# Verification of the lingo.dev loader pipeline algorithms

Shallow embedding of the plural/ICU conversion engine
(`packages/cli/src/cli/loaders/xcode-xcstrings-icu.ts`, whose implementation
appears in `icu-safety.spec.ts`), the locked-pattern content protection loader
(`packages/cli/src/cli/loaders/locked-patterns.ts`) and the key pattern matcher
(`matchesKeyPattern`).  Strings are embedded as `List Char`; JavaScript objects
used as string-keyed records are embedded as ordered association lists
(mirroring JS insertion-order semantics for string keys).
-/

set_option maxRecDepth 10000

abbrev Str := List Char

deriving instance DecidableEq for Except

namespace LingoDev


/-- JS `\w` word character class (ASCII): letters, digits, underscore. -/
def isWordChar (c : Char) : Bool :=
  (('a' ≤ c && c ≤ 'z') || ('A' ≤ c && c ≤ 'Z') || ('0' ≤ c && c ≤ '9') || c = '_')

/-- JS `\s` whitespace class restricted to ASCII members. -/
def isSpaceJS (c : Char) : Bool :=
  c = ' ' || c = '\t' || c = '\n' || c = '\r' || c = '\x0b' || c = '\x0c'

/-- ASCII decimal digit. -/
def isDigitC (c : Char) : Bool := '0' ≤ c && c ≤ '9'

/-- Conversion characters of the format-specifier regex in
`xcstringsToPluralWithMeta`: `[diuoxXfFeEgGaAcspn@]`. -/
def isConvChar (c : Char) : Bool :=
  c = 'd' || c = 'i' || c = 'u' || c = 'o' || c = 'x' || c = 'X' ||
  c = 'f' || c = 'F' || c = 'e' || c = 'E' || c = 'g' || c = 'G' ||
  c = 'a' || c = 'A' || c = 'c' || c = 's' || c = 'p' || c = 'n' || c = '@'

/-- Numeric conversion characters, the `/[diuoxXfFeE]/` test used to locate the
plural variable. -/
def isNumericConv (c : Char) : Bool :=
  c = 'd' || c = 'i' || c = 'u' || c = 'o' || c = 'x' || c = 'X' ||
  c = 'f' || c = 'F' || c = 'e' || c = 'E'

/-- Length modifier class `[lhqLzjt]` of the format-specifier regex. -/
def isLengthMod (c : Char) : Bool :=
  c = 'l' || c = 'h' || c = 'q' || c = 'L' || c = 'z' || c = 'j' || c = 't'

/-- Split a leading run of decimal digits. -/
def takeDigits (s : Str) : Str × Str := (s.takeWhile isDigitC, s.dropWhile isDigitC)

/-- One format-specifier match: the full matched text (`match[1]`) and the
conversion character (`match[5]`). -/
structure SpecMatch where
  full : Str
  conv : Char
  deriving DecidableEq, Repr

/-- Optional position group `(?:(\d+)\$)?`: digits immediately followed by
`$`, or nothing (the digits are then left for the width). -/
def pPos (r0 : Str) : Str × Str :=
  match (takeDigits r0).1, (takeDigits r0).2 with
  | _ :: _, '$' :: r2 => ((takeDigits r0).1 ++ ['$'], r2)
  | _, _ => ([], r0)

/-- Optional sign `(?:[+-])?`. -/
def pSign (rp : Str) : Str × Str :=
  match rp with
  | c :: r => if c = '+' || c = '-' then ([c], r) else ([], rp)
  | [] => ([], rp)

/-- Optional precision `(?:\.(\d+))?`: a dot must be followed by at least one
digit or the whole attempt fails (no other component can consume the dot). -/
def pPrec (rw : Str) : Option (Str × Str) :=
  match rw with
  | '.' :: r =>
    if (takeDigits r).1.isEmpty then none else some ('.' :: (takeDigits r).1, (takeDigits r).2)
  | _ => some ([], rw)

/-- Attempt to match the format-specifier regex
`%(?:(\d+)\$)?(?:[+-])?(?:\d+)?(?:\.(\d+))?([lhqLzjt]*)([diuoxXfFeEgGaAcspn@])`
at the head of `s`.  The regex is deterministic on this input shape (the
length-modifier and conversion classes are disjoint, so no backtracking can
rescue a failed attempt), which the embedding exploits.  Returns the match and
the remaining text. -/
def tryParseSpec (s : Str) : Option (SpecMatch × Str) :=
  match s with
  | '%' :: r0 =>
    match pPrec (takeDigits (pSign (pPos r0).2).2).2 with
    | none => none
    | some precState =>
      match precState.2.dropWhile isLengthMod with
      | c :: rest =>
        if isConvChar c then
          some
            (⟨'%' ::
                ((pPos r0).1 ++ (pSign (pPos r0).2).1 ++
                  (takeDigits (pSign (pPos r0).2).2).1 ++ precState.1 ++
                  precState.2.takeWhile isLengthMod ++ [c]),
              c⟩,
            rest)
        else none
      | [] => none
  | _ => none

/-- A piece of a scanned text: either one literal character or one
format-specifier match. -/
inductive Piece where
  | lit (c : Char)
  | spec (m : SpecMatch)
  deriving DecidableEq, Repr

/-- Scan `s` left to right the way `String.prototype.matchAll` with the global
format-specifier regex does: at each position, if a specifier matches, emit it
and continue after it; otherwise emit the character as a literal and advance by
one.  Fuel-driven so that the definition reduces in the kernel; `fuel ≥ s.length`
is always sufficient since every step consumes at least one character. -/
def scanSpecsF : Nat → Str → List Piece
  | 0, _ => []
  | _ + 1, [] => []
  | fuel + 1, c :: rest =>
    match tryParseSpec (c :: rest) with
    | some (m, r) => .spec m :: scanSpecsF fuel r
    | none => .lit c :: scanSpecsF fuel rest

def scanSpecs (s : Str) : List Piece := scanSpecsF s.length s

/-- The format-specifier matches of `s`, in order (`[...text.matchAll(formatRegex)]`). -/
def specsOf (s : Str) : List SpecMatch :=
  (scanSpecs s).filterMap fun p => match p with | .spec m => some m | .lit _ => none

/-- Digit character for values below 16 (decimal and lowercase hex). -/
def digitCh (d : Nat) : Char :=
  match d with
  | 0 => '0' | 1 => '1' | 2 => '2' | 3 => '3' | 4 => '4'
  | 5 => '5' | 6 => '6' | 7 => '7' | 8 => '8' | 9 => '9'
  | 10 => 'a' | 11 => 'b' | 12 => 'c' | 13 => 'd' | 14 => 'e' | _ => 'f'

/-- Base-10 digits of `n`, least significant first (fuel-driven; `fuel ≥ n`
suffices). -/
def natDigitsRev : Nat → Nat → List Nat
  | 0, _ => []
  | _ + 1, 0 => []
  | fuel + 1, n => n % 10 :: natDigitsRev fuel (n / 10)

/-- Decimal rendering of a natural number (JS template-literal number
interpolation, used for `var${counter}` and `=${n}`). -/
def natToStr (n : Nat) : Str :=
  if n = 0 then ['0'] else ((natDigitsRev n n).reverse).map digitCh

inductive Role where
  | plural
  | other
  deriving DecidableEq, Repr

structure VarMeta where
  format : Str
  role : Role
  deriving DecidableEq, Repr

/-- The plural object `{ icu, _meta?: { variables } }`; `variables` is an
ordered association list embedding the JS object with its string-key insertion
order. -/
structure PluralWithMetadata where
  icu : Str
  meta : Option (List (Str × VarMeta))
  deriving DecidableEq, Repr

/-- JS object property assignment `m[k] = v`: overwrite in place if the key
exists, else append. -/
def upsert {β : Type} (m : List (Str × β)) (k : Str) (v : β) : List (Str × β) :=
  match m with
  | [] => [(k, v)]
  | (k', v') :: rest => if k' = k then (k, v) :: rest else (k', v') :: upsert rest k v

/-- The `maxMatches`/`maxMatchText` fold of `xcstringsToPluralWithMeta`: the
first form whose specifier-match list is strictly longer than every earlier
one (`matches.length > maxMatches.length`). -/
def refStep (acc : List SpecMatch × Str) (ft : Str × Str) : List SpecMatch × Str :=
  if acc.1.length < (specsOf ft.2).length then (specsOf ft.2, ft.2) else acc

def refFold (forms : List (Str × Str)) : List SpecMatch × Str :=
  forms.foldl refStep ([], [])

/-- Index of the last specifier with a numeric conversion (`lastNumericIndex`,
`-1` becoming `none`). -/
def lastNumericIndex (ms : List SpecMatch) : Option Nat :=
  ((ms.enum.filter fun p => isNumericConv p.2.conv).getLast?).map (·.1)

/-- The `variables` map built by the second `forEach`: entry `idx` is named
`count` with role `plural` when `idx = lastNumericIndex`, else
`var${nonPluralCounter}` with role `other`. -/
def buildVariablesGo (lastNum : Option Nat) : Nat → Nat → List SpecMatch → List (Str × VarMeta)
  | _, _, [] => []
  | idx, counter, m :: rest =>
    if lastNum = some idx then
      ("count".toList, ⟨m.full, .plural⟩) :: buildVariablesGo lastNum (idx + 1) counter rest
    else
      ("var".toList ++ natToStr counter, ⟨m.full, .other⟩) ::
        buildVariablesGo lastNum (idx + 1) (counter + 1) rest

def buildVariables (ms : List SpecMatch) : List (Str × VarMeta) :=
  buildVariablesGo (lastNumericIndex ms) 0 0 ms

/-- The replacement callback of `processed.replace(formatRegex, cb)`: the
`vIdx`-th match maps to `#` when `variableKeys[vIdx]` has role `plural`, to
`{varName}` when role `other`, and to the `#` fallback when `vIdx` runs past
the key list. -/
def renderSlot (vars : List (Str × VarMeta)) (vIdx : Nat) : Str :=
  match vars.get? vIdx with
  | none => ['#']
  | some nv =>
    match nv.2.role with
    | .plural => ['#']
    | .other => '{' :: nv.1 ++ ['}']

def substBodyGo (vars : List (Str × VarMeta)) : Nat → List Piece → Str
  | _, [] => []
  | vIdx, .lit c :: rest => c :: substBodyGo vars vIdx rest
  | vIdx, .spec _ :: rest => renderSlot vars vIdx ++ substBodyGo vars (vIdx + 1) rest

/-- `text.replace(formatRegex, cb)`: every specifier occurrence replaced in
order through the `vIdx` counter. -/
def substBody (vars : List (Str × VarMeta)) (text : Str) : Str :=
  substBodyGo vars 0 (scanSpecs text)

/-- `CLDR_CATEGORY_TO_NUMBER`. -/
def cldrCategoryToNumber (k : Str) : Option Nat :=
  if k = "zero".toList then some 0
  else if k = "one".toList then some 1
  else if k = "two".toList then some 2
  else none

/-- The emitted form key: optional `zero`/`one`/`two` categories are re-keyed
as exact matches, everything else is kept verbatim. -/
def formKeyFor (required : List Str) (form : Str) : Str :=
  if required.contains form then form
  else
    match cldrCategoryToNumber form with
    | some n => '=' :: natToStr n
    | none => form

/-- The joined ICU forms string: `` `${formKey} {${processed}}` `` entries
joined by a single space. -/
def icuFormsOf (required : List Str) (vars : List (Str × VarMeta))
    (forms : List (Str × Str)) : Str :=
  List.intercalate [' ']
    (forms.map fun ft => formKeyFor required ft.1 ++ ' ' :: '{' :: (substBody vars ft.2 ++ ['}']))

/-- `xcstringsToPluralWithMeta(pluralForms, sourceLocale)`.

The embedding is parameterized by `required`, the CLDR category list that
`getRequiredPluralCategories(sourceLocale)` resolves through the
`Intl.PluralRules` runtime builtin (with the `["one", "other"]` fallback on
resolution failure); the function itself only consumes the resolved list.
All form values are strings here, so the non-string skip branches (which only
log a warning and drop the entry) are not taken. -/
def xcstringsToPluralWithMeta (forms : List (Str × Str)) (required : List Str) :
    Except Str PluralWithMetadata :=
  if forms.isEmpty then .error "pluralForms cannot be empty".toList
  else
    let vars := buildVariables (refFold forms).1
    let pluralVarName :=
      match vars.find? fun nv => nv.2.role = .plural with
      | some nv => nv.1
      | none => "count".toList
    let icu := '{' :: (pluralVarName ++ ", plural, ".toList ++ icuFormsOf required vars forms ++ ['}'])
    .ok ⟨icu, if vars.isEmpty then none else some vars⟩

/-! ## Inverse conversion: `parseICU`, `parseFormText`, `pluralWithMetaToXcstrings` -/

/-- A line terminator for JS `.` (which matches `[^\n\r  ]`). -/
def isLineTerm (c : Char) : Bool :=
  c = '\n' || c = '\r' || c = '\u2028' || c = '\u2029'

/-- Whether a candidate tail can be matched by the regex suffix `(.+)\}$`:
nonempty text without line terminators followed by a final `}`. -/
def viableTail (s : Str) : Bool :=
  match s.getLast? with
  | some '}' => !s.dropLast.isEmpty && s.dropLast.all fun c => !isLineTerm c
  | _ => false

/-- Greedy `\s*` before `(.+)\}$`: try the longest whitespace prefix first and
give characters back until the tail can match. -/
def wsTryF : Nat → Str → Option Str
  | 0, r => if viableTail r then some r.dropLast else none
  | j + 1, r =>
    if viableTail (r.drop (j + 1)) then some ((r.drop (j + 1)).dropLast) else wsTryF j r

def wsGreedy (r : Str) : Option Str := wsTryF (r.takeWhile isSpaceJS).length r

/-- One attempt of `/\{(\w+),\s*plural,\s*(.+)\}$/` anchored at the head of
`s`; returns the captured variable name and forms text.  The regex is
deterministic at a fixed start position except for the final `\s*(.+)\}$`
interplay, which `wsGreedy` resolves greedily as the engine does. -/
def attemptOuter (s : Str) : Option (Str × Str) :=
  match s with
  | '{' :: r0 =>
    let w := r0.takeWhile isWordChar
    let r1 := r0.dropWhile isWordChar
    if w.isEmpty then none
    else
      match r1 with
      | ',' :: r2 =>
        let r3 := r2.dropWhile isSpaceJS
        if "plural".toList.isPrefixOf r3 then
          match r3.drop 6 with
          | ',' :: r4 => (wsGreedy r4).map fun ft => (w, ft)
          | _ => none
        else none
      | _ => none
  | _ => none

/-- `icu.match(...)`: leftmost start position where the pattern matches. -/
def findOuter : Str → Option (Str × Str)
  | [] => none
  | c :: rest =>
    match attemptOuter (c :: rest) with
    | some r => some r
    | none => findOuter rest

/-- An element of a parsed form body. -/
inductive Elem where
  | lit (s : Str)
  | pound
  | arg (name : Str)
  deriving DecidableEq, Repr

/-- Scan for the matching `}` of an already-consumed `{` inside a form body
(`parseFormText`'s inner brace scan): returns the enclosed text (nested braces
kept verbatim) and the rest after the matching `}`.  `depth` is the number of
additional unclosed `{` seen so far. -/
def scanArgF : Nat → Nat → Str → Option (Str × Str)
  | 0, _, _ => none
  | _ + 1, _, [] => none
  | fuel + 1, depth, c :: r =>
    if c = '{' then (scanArgF fuel (depth + 1) r).map fun p => (c :: p.1, p.2)
    else if c = '}' then
      if depth = 0 then some ([], r)
      else (scanArgF fuel (depth - 1) r).map fun p => (c :: p.1, p.2)
    else (scanArgF fuel depth r).map fun p => (c :: p.1, p.2)

/-- `parseFormText`: split a form body into literal runs, `#` pounds and
`{argName}` argument tokens.  `acc` is the pending `currentText`. -/
def parseFormTextF : Nat → Str → Str → Except Str (List Elem)
  | 0, _, _ => .error []
  | _ + 1, acc, [] => .ok (if acc.isEmpty then [] else [.lit acc])
  | fuel + 1, acc, '#' :: r =>
    (parseFormTextF fuel [] r).map fun es =>
      if acc.isEmpty then .pound :: es else .lit acc :: .pound :: es
  | fuel + 1, acc, '{' :: r =>
    match scanArgF r.length 0 r with
    | none => .error "Unclosed variable reference".toList
    | some (inner, rest) =>
      (parseFormTextF fuel [] rest).map fun es =>
        if acc.isEmpty then .arg inner :: es else .lit acc :: .arg inner :: es
  | fuel + 1, acc, c :: r => parseFormTextF fuel (acc ++ [c]) r

def parseFormText (s : Str) : Except Str (List Elem) := parseFormTextF (s.length + 1) [] s

/-- Read a form name: `=` followed by digits, or a `\w+` word. -/
def readFormName (s : Str) : Str × Str :=
  match s with
  | '=' :: r => ('=' :: (takeDigits r).1, (takeDigits r).2)
  | _ => (s.takeWhile isWordChar, s.dropWhile isWordChar)

/-- The body-extraction loop of `parseICU`: starting with `braceCount = count`,
append characters (closing braces only while the count stays positive) until
the count reaches zero or the text runs out.  Returns the body, the final
brace count, and the rest. -/
def scanBodyF : Nat → Nat → Str → Str × Nat × Str
  | _, 0, rest => ([], 0, rest)
  | _, count, [] => ([], count, [])
  | 0, count, rest => ([], count, rest)
  | fuel + 1, count, c :: r =>
    if c = '{' then
      let p := scanBodyF fuel (count + 1) r
      (c :: p.1, p.2)
    else if c = '}' then
      if count - 1 = 0 then scanBodyF fuel 0 r
      else
        let p := scanBodyF fuel (count - 1) r
        (c :: p.1, p.2)
    else
      let p := scanBodyF fuel count r
      (c :: p.1, p.2)

/-- Last `n` characters of `s` (`substring(max(0, len - n), len)`). -/
def lastN (n : Nat) (s : Str) : Str := s.drop (s.length - n)

/-- The unclosed-brace error message of `parseICU`, including the surrounding
text window of the offending input. -/
def unclosedBraceMsg (varName formsText formName : Str) (braceCount : Nat) : Str :=
  "Unclosed brace for form '".toList ++ formName ++ "' in ICU MessageFormat.\n".toList ++
    "Expected ".toList ++ natToStr braceCount ++ " more closing brace(s).\n".toList ++
    "Context: ...".toList ++ lastN 50 formsText ++ "...\n".toList ++
    "Full ICU: \x7b".toList ++ varName ++ ", plural, ".toList ++ formsText ++ "\x7d".toList

/-- One iteration of `parseICU`'s while loop: skip whitespace, read a form
name (empty name breaks the loop), expect `{`, and extract the body.  Returns
`none` when the loop ends. -/
def parseOneForm (varName formsText s : Str) : Except Str (Option ((Str × Str) × Str)) :=
  let s1 := s.dropWhile isSpaceJS
  if s1.isEmpty then .ok none
  else
    let (formName, s2) := readFormName s1
    if formName.isEmpty then .ok none
    else
      let s3 := s2.dropWhile isSpaceJS
      match s3 with
      | '{' :: s4 =>
        let (body, fc, rest) := scanBodyF s4.length 1 s4
        if fc = 0 then .ok (some ((formName, body), rest))
        else .error (unclosedBraceMsg varName formsText formName fc)
      | _ =>
        .error ("Expected '\x7b' after form name '".toList ++ formName ++ "'".toList)

/-- The while loop of `parseICU`, accumulating `options[formName] = {value:
parseFormText(formText)}` with JS object-assignment semantics. -/
def parseFormsF : Nat → Str → Str → Str → List (Str × List Elem) →
    Except Str (List (Str × List Elem))
  | 0, _, _, _, acc => .ok acc
  | fuel + 1, varName, formsText, s, acc => do
    match ← parseOneForm varName formsText s with
    | none => .ok acc
    | some ((name, body), rest) => do
      let elems ← parseFormText body
      parseFormsF fuel varName formsText rest (upsert acc name elems)

/-- The single `plural`-typed AST node `parseICU` returns. -/
structure ICUAst where
  varName : Str
  options : List (Str × List Elem)
  deriving DecidableEq, Repr

/-- `parseICU(icu)`. -/
def parseICU (icu : Str) : Except Str ICUAst :=
  match findOuter icu with
  | none => .error "Invalid ICU plural format".toList
  | some (varName, formsText) => do
    let opts ← parseFormsF (formsText.length + 1) varName formsText formsText []
    .ok ⟨varName, opts⟩

/-- `parseInt(s, 10)`: skip whitespace, optional sign, then a nonempty run of
decimal digits (`NaN` becoming `none`). -/
def parseIntJS (s : Str) : Option Int :=
  let t := s.dropWhile isSpaceJS
  let core : Option (Bool × Str) :=
    match t with
    | '-' :: r => some (true, r)
    | '+' :: r => some (false, r)
    | _ => some (false, t)
  match core with
  | some (neg, r) =>
    let ds := (takeDigits r).1
    if ds.isEmpty then none
    else
      let n : Nat := ds.foldl (fun a c => a * 10 + (c.toNat - 48)) 0
      some (if neg then -(n : Int) else (n : Int))
  | none => none

/-- The exact-match inverse re-keying: `=N` keys map through
`NUMBER_TO_CLDR_CATEGORY[parseInt(N)] || form`. -/
def rekeyBack (form : Str) : Str :=
  match form with
  | '=' :: rest =>
    match parseIntJS rest with
    | some 0 => "zero".toList
    | some 1 => "one".toList
    | some 2 => "two".toList
    | _ => form
  | _ => form

/-- `data._meta?.variables || {}` as an ordered entry list. -/
def metaVariables (data : PluralWithMetadata) : List (Str × VarMeta) :=
  match data.meta with
  | some vs => vs
  | none => []

/-- `pluralWithMetaToXcstrings(data)`.

The `!ast || ast.length === 0` and `!pluralNode` re-checks of the source are
omitted: `parseICU` always returns exactly one `plural` node, so they cannot
fire.  The per-element rendering is inlined as in the source's for-loop,
including the falsy `||` defaults for the recorded formats. -/
def pluralWithMetaToXcstrings (data : PluralWithMetadata) :
    Except Str (List (Str × Str)) :=
  if data.icu.isEmpty then .error "ICU string is required".toList
  else do
    let ast ← parseICU data.icu
    .ok (ast.options.foldl
      (fun acc fe =>
        upsert acc (rekeyBack fe.1)
          (fe.2.foldl
            (fun t e =>
              match e with
              | .lit s => t ++ s
              | .pound =>
                t ++
                  match (metaVariables data).find? fun nv => nv.2.role = .plural with
                  | some nv => if nv.2.format.isEmpty then "%lld".toList else nv.2.format
                  | none => "%lld".toList
              | .arg varName =>
                t ++
                  match ((metaVariables data).find? fun nv => nv.1 = varName).map (·.2) with
                  | some vm => if vm.format.isEmpty then "%@".toList else vm.format
                  | none => "%@".toList)
            []))
      [])

/-! ## Locked-pattern content protection (`locked-patterns.ts`) -/

/-- Whether `pat` occurs as a contiguous substring of `s`. -/
def containsSubstr (s pat : Str) : Bool :=
  if pat.isPrefixOf s then true
  else
    match s with
    | [] => false
    | _ :: t => containsSubstr t pat

/-- Modelled from the spec: the `md5` utility
(`packages/cli/src/cli/utils/md5.ts`) is not under `src/`; per the spec the
placeholder hash is "a deterministic content hash of the exact protected
substring, lowercase hex" (128-bit).  Any concrete deterministic 128-bit hash
satisfies that description; this one folds the character codes modulo `2^128`. -/
def hashNat (m : Str) : Nat :=
  m.foldl (fun a c => (a * 131 + c.toNat) % 2 ^ 128) 5381

/-- Lowercase-hex rendering of the 128-bit content hash, 32 digits. -/
def hashHex (m : Str) : Str :=
  (List.range 32).map fun i => digitCh (hashNat m / 16 ^ (31 - i) % 16)

/-- The placeholder token `` `---LOCKED-PATTERN-${matchHash}---` ``. -/
def mkLockedToken (m : Str) : Str :=
  "---LOCKED-PATTERN-".toList ++ hashHex m ++ "---".toList

/-- ECMAScript `GetSubstitution` for a string replacement value: expansion of
`$$`, `$&`, `` $` `` and `$'` (with no capture groups, `$n` and `$<name>` stay
literal).  `matched` is the matched substring, `before`/`after` the portions of
the subject around the match. -/
def getSubstitution (matched before after : Str) : Str → Str
  | [] => []
  | ['$'] => ['$']
  | '$' :: '$' :: r => '$' :: getSubstitution matched before after r
  | '$' :: '&' :: r => matched ++ getSubstitution matched before after r
  | '$' :: '`' :: r => before ++ getSubstitution matched before after r
  | '$' :: '\'' :: r => after ++ getSubstitution matched before after r
  | '$' :: c :: r => '$' :: getSubstitution matched before after (c :: r)
  | c :: t => c :: getSubstitution matched before after t

/-- JS `String.prototype.replace` with a string search value: replace the
first occurrence, running the replacement through `GetSubstitution`.  `pre` is
the already-scanned prefix of the subject. -/
def replaceFirstGo (pre : Str) : Str → Str → Str → Str
  | s, pat, rep =>
    if pat.isPrefixOf s then
      getSubstitution pat pre (s.drop pat.length) rep ++ s.drop pat.length
    else
      match s with
      | [] => []
      | c :: t => c :: replaceFirstGo (pre ++ [c]) t pat rep

def jsReplaceFirst (s pat rep : Str) : Str := replaceFirstGo [] s pat rep

/-- JS `String.prototype.replaceAll` with a string search value: every
non-overlapping occurrence, left to right, each replacement running through
`GetSubstitution`.  Fuel-driven; every step consumes at least one character. -/
def jsReplaceAllF : Nat → Str → Str → Str → Str → Str
  | 0, _, s, _, _ => s
  | fuel + 1, pre, s, pat, rep =>
    if ¬pat.isEmpty ∧ pat.isPrefixOf s then
      getSubstitution pat pre (s.drop pat.length) rep ++
        jsReplaceAllF fuel (pre ++ pat) (s.drop pat.length) pat rep
    else
      match s with
      | [] => []
      | c :: t => c :: jsReplaceAllF fuel (pre ++ [c]) t pat rep

def jsReplaceAll (s pat rep : Str) : Str := jsReplaceAllF (s.length + 1) [] s pat rep

/-- Result of `extractLockedPatterns`: the transformed content and the
placeholder map (ordered association list, JS object insertion order). -/
structure ExtractResult where
  content : Str
  lockedPlaceholders : List (Str × Str)
  deriving DecidableEq, Repr

/-- `extractLockedPatterns(content, patterns)`.

The JS `new RegExp(patternStr, "gm")` / `matchAll` machinery is abstracted as
the parameter `matchFn pattern currentContent`, returning the list of matched
substrings in match order on the current (already partially substituted)
content; the matches for one pattern are collected before any of them is
substituted, exactly as `Array.from(finalContent.matchAll(pattern))` does.
Each match is hashed, recorded in the placeholder map and replaced (first
occurrence) by its token.  The invalid-regex `catch` branch (warn and skip) is
outside the embedding: `matchFn` is total. -/
def lockMatchStep (st2 : ExtractResult) (m : Str) : ExtractResult :=
  let tok := mkLockedToken m
  { content := jsReplaceFirst st2.content m tok,
    lockedPlaceholders := upsert st2.lockedPlaceholders tok m }

def lockPatternStep (matchFn : Str → Str → List Str) (st : ExtractResult)
    (pat : Str) : ExtractResult :=
  (matchFn pat st.content).foldl lockMatchStep st

def extractLockedPatterns (matchFn : Str → Str → List Str) (patterns : List Str)
    (content : Str) : ExtractResult :=
  patterns.foldl (lockPatternStep matchFn) { content := content, lockedPlaceholders := [] }

/-- The locked-patterns loader's `pull`: extract and return the content. -/
def pullLockedPatterns (matchFn : Str → Str → List Str) (patterns : List Str)
    (input : Str) : Str :=
  (extractLockedPatterns matchFn patterns input).content

/-- The locked-patterns loader's raw `push`: without a (truthy) `pullInput`
return the payload unchanged; otherwise re-extract the placeholder map from
`pullInput` and `replaceAll` each placeholder with its original text. -/
def pushLockedPatterns (matchFn : Str → Str → List Str) (patterns : List Str)
    (data : Str) (pullInput : Option Str) : Str :=
  match pullInput with
  | none => data
  | some p =>
    if p.isEmpty then data
    else
      (extractLockedPatterns matchFn patterns p).lockedPlaceholders.foldl
        (fun res tv => jsReplaceAll res tv.1 tv.2) data

/-- Interpret a regex source made only of plain characters and
backslash-escaped characters as the literal string it matches (`\$` is a
literal dollar, identity escapes stay themselves).  This is the fragment of
`new RegExp` semantics the concrete instances below need. -/
def unescapeLit : Str → Str
  | [] => []
  | '\\' :: c :: r => c :: unescapeLit r
  | ['\\'] => []
  | c :: r => c :: unescapeLit r

/-- Number of non-overlapping leftmost occurrences of `pat` in `s`. -/
def countOccF : Nat → Str → Str → Nat
  | 0, _, _ => 0
  | fuel + 1, s, pat =>
    if ¬pat.isEmpty ∧ pat.isPrefixOf s then 1 + countOccF fuel (s.drop pat.length) pat
    else
      match s with
      | [] => 0
      | _ :: t => countOccF fuel t pat

def countOcc (s pat : Str) : Nat := countOccF (s.length + 1) s pat

/-- `matchAll` for literal-only patterns: each match is the unescaped literal
itself, one per non-overlapping occurrence. -/
def literalMatchAll (pat content : Str) : List Str :=
  let lit := unescapeLit pat
  List.replicate (countOcc content lit) lit

/-- The per-stage state captured by the most recent `pull`. -/
structure LoaderCapture where
  originalLocale : Str
  originalInput : Str
  pullInput : Str
  pullOutput : Str
  deriving DecidableEq, Repr

/-- Modelled from the spec: the loader wrapper `createLoader`
(`packages/cli/src/cli/loaders/_utils.ts`) is not under `src/`.  Per spec
§4.1/§7, `push` defaults its `originalInput`/`pullInput` arguments to the
stage's own captured state from the most recent `pull`, and a `push` that
cannot obtain that state — no prior `pull` captured it and no explicit
argument was supplied — fails fatally with a descriptive "missing captured
state" error.  The wrapped stage here is the locked-patterns loader. -/
def lockedPatternsLoaderPush (matchFn : Str → Str → List Str) (patterns : List Str)
    (capture : Option LoaderCapture) (explicitPullInput : Option Str)
    (data : Str) : Except Str Str :=
  match explicitPullInput <|> capture.map (·.pullInput) with
  | none => .error "missing captured state: push called without a prior pull".toList
  | some pin => .ok (pushLockedPatterns matchFn patterns data (some pin))

/-! ## Key pattern matcher (`matchesKeyPattern`) -/

/-- Star/literal glob match on one path segment: `*` matches any run of
characters (segments contain no `/`).  Fuel-driven backtracking matcher;
`p.length + k.length + 1` fuel always suffices. -/
def segMatchF : Nat → Str → Str → Bool
  | 0, _, _ => false
  | _ + 1, [], k => k.isEmpty
  | fuel + 1, c :: ps, k =>
    if c = '*' then
      segMatchF fuel ps k ||
        match k with
        | [] => false
        | _ :: kt => segMatchF fuel (c :: ps) kt
    else
      match k with
      | [] => false
      | c' :: kt => c = c' && segMatchF fuel ps kt

def segMatch (p k : Str) : Bool := segMatchF (p.length + k.length + 1) p k

/-- Model of the `minimatch` dependency for patterns built from plain
characters, `/` separators and `*` wildcards (no `**` globstar segment, no
other metacharacters): pattern and key are split on `/`, the segment counts
must agree, and each pattern segment must match the corresponding key
segment with `*` confined to its segment. -/
def minimatchStar (key pat : Str) : Bool :=
  let ps := pat.splitOn '/'
  let ks := key.splitOn '/'
  ps.length == ks.length && (List.zip ps ks).all fun pk => segMatch pk.1 pk.2

/-- `matchesKeyPattern(key, patterns)` (`key-matching.ts`):
`patterns.some((pattern) => key.startsWith(pattern) || minimatch(key, pattern))`. -/
def matchesKeyPattern (key : Str) (patterns : List Str) : Bool :=
  patterns.any fun p => p.isPrefixOf key || minimatchStar key p

/-! ## The `isPluralFormsObject` type guard -/

/-- Untyped JS values as they arrive at the guard from deserialized data. -/
inductive JsVal where
  | str (s : Str)
  | num (n : Int)
  | boolean (b : Bool)
  | null
  | undef
  | arr (xs : List JsVal)
  | obj (fields : List (Str × JsVal))

/-- `CLDR_PLURAL_CATEGORIES`. -/
def cldrPluralCategories : List Str :=
  ["zero".toList, "one".toList, "two".toList, "few".toList, "many".toList, "other".toList]

def isStringVal : JsVal → Bool
  | .str _ => true
  | _ => false

/-- `isPluralFormsObject(value)`: the falsy / `typeof !== "object"` /
`Array.isArray` checks reject everything but plain objects; then the key set
must be nonempty, all keys CLDR categories, all values strings, and `other`
present. -/
def isPluralFormsObject (v : JsVal) : Bool :=
  match v with
  | .obj fields =>
    let keys := fields.map (·.1)
    !keys.isEmpty &&
      (keys.all fun k => cldrPluralCategories.contains k) &&
      (fields.all fun kv => isStringVal kv.2) &&
      keys.contains "other".toList
  | _ => false

/-! ## Claim C9: placeholder token grammar and idempotence -/

/-- Every character of `hashHex m` is a lowercase hexadecimal digit. -/
def isLowerHexDigit (c : Char) : Bool :=
  ('0' ≤ c && c ≤ '9') || ('a' ≤ c && c ≤ 'f')

/-- Specification-side rendering of a parsed form body: concatenate, left to
right, literal tokens verbatim, `#` as the first `plural`-role variable's
format when it is present and nonempty (else `%lld`), and `{argName}` as that
variable's recorded format when present and nonempty (else `%@`). -/
def renderBodySpec (vars : List (Str × VarMeta)) (es : List Elem) : Str :=
  (es.map fun e =>
    match e with
    | .lit s => s
    | .pound =>
      match vars.find? fun nv => nv.2.role = .plural with
      | some nv => if nv.2.format.isEmpty then "%lld".toList else nv.2.format
      | none => "%lld".toList
    | .arg n =>
      match (vars.find? fun nv => nv.1 = n).map (·.2) with
      | some vm => if vm.format.isEmpty then "%@".toList else vm.format
      | none => "%@".toList).flatten

/-! ## Claim C8: key pattern matcher -/

/-- Declarative star-glob matching on one `/`-free segment: literal characters
match themselves and `*` matches any (possibly empty) run. -/
inductive SegSem : Str → Str → Prop where
  | nil : SegSem [] []
  | chr (c : Char) (hc : c ≠ '*') {ps ks : Str} :
      SegSem ps ks → SegSem (c :: ps) (c :: ks)
  | star (t : Str) {ps k : Str} : SegSem ps k → SegSem ('*' :: ps) (t ++ k)

/-- Declarative `/`-segment glob semantics: equal segment counts and
segment-wise star matching. -/
def GlobSem (pat key : Str) : Prop :=
  List.Forall₂ SegSem (pat.splitOn '/') (key.splitOn '/')

/-- Scope of the minimatch model: plain characters (letters, digits, `_`,
`-`) plus `/`; patterns may additionally use `*`, with no `**` globstar
segment (real minimatch gives a whole-`**` segment cross-segment semantics
that this model does not implement). -/
def plainChar (c : Char) : Bool := isWordChar c || c = '-'

def keyOk (key : Str) : Bool := key.all fun c => plainChar c || c = '/'

def patOk (p : Str) : Bool :=
  (p.all fun c => plainChar c || c = '/' || c = '*') &&
    (p.splitOn '/').all fun seg => !(seg == "**".toList)

/-! ## Decimal rendering: injectivity -/

def digitsVal (ds : List Nat) : Nat := ds.foldr (fun d acc => d + 10 * acc) 0

/-! ## Claim C3: plural-variable naming heuristic -/

/-- Specification-side rendering of the `vIdx`-th specifier slot: `#` at the
plural index `k`, `{varI}` elsewhere with `I` counting non-plural slots in
first-appearance order. -/
def slotSpec (k i : Nat) : Str :=
  if i = k then ['#']
  else '{' :: (("var".toList ++ natToStr (if i < k then i else i - 1)) ++ ['}'])

def substBodySpecGo (k : Nat) : Nat → List Piece → Str
  | _, [] => []
  | i, .lit c :: rest => c :: substBodySpecGo k i rest
  | i, .spec _ :: rest => slotSpec k i ++ substBodySpecGo k (i + 1) rest

/-- Specification-side body substitution: the `i`-th specifier occurrence of
`text` is replaced positionally by `slotSpec k i`. -/
def substBodySpec (k : Nat) (text : Str) : Str := substBodySpecGo k 0 (scanSpecs text)

def specPieces : List Piece → Nat
  | [] => 0
  | .lit _ :: r => specPieces r
  | .spec _ :: r => 1 + specPieces r

/-! ## Claim C1: round-trip infrastructure -/

/-- The source text a scanned piece stands for. -/
def pieceText : Piece → Str
  | .lit c => [c]
  | .spec m => m.full

/-- A string free of both brace characters. -/
def braceFree (s : Str) : Bool := s.all fun c => c ≠ '{' && c ≠ '}'

/-- Concatenations of non-brace characters and fully enclosed `{…}` groups
with brace-free interiors: exactly the shape of an emitted form body. -/
inductive ChunkList : Str → Prop where
  | nil : ChunkList []
  | chr (c : Char) (hc : c ≠ '{' ∧ c ≠ '}') (s : Str) (hs : ChunkList s) : ChunkList (c :: s)
  | grp (w : Str) (hw : braceFree w = true) (s : Str) (hs : ChunkList s) :
      ChunkList ('{' :: w ++ '}' :: s)

/-- The `#` reconstruction of the inverse conversion: the plural-role
variable's format when present and nonempty, else `%lld`. -/
def poundFmt (vars : List (Str × VarMeta)) : Str :=
  match vars.find? fun nv => nv.2.role = .plural with
  | some nv => if nv.2.format.isEmpty then "%lld".toList else nv.2.format
  | none => "%lld".toList

/-- The `{argName}` reconstruction of the inverse conversion: that variable's
recorded format when present and nonempty, else `%@`. -/
def argFmt (vars : List (Str × VarMeta)) (n : Str) : Str :=
  match (vars.find? fun nv => nv.1 = n).map (·.2) with
  | some vm => if vm.format.isEmpty then "%@".toList else vm.format
  | none => "%@".toList

/-- How one rendered specifier slot survives the round trip: it is either the
pound slot whose inverse reconstruction is the specifier's text, or an
argument slot `{name}` whose recorded format is looked up back to the
specifier's text. -/
def SlotRender (vars : List (Str × VarMeta)) (j : Nat) (m : SpecMatch) : Prop :=
  (renderSlot vars j = ['#'] ∧ poundFmt vars = m.full) ∨
  (∃ name, renderSlot vars j = '{' :: (name ++ ['}']) ∧ braceFree name = true ∧
    argFmt vars name = m.full)

/-- A form key as it appears in the emitted ICU string: a nonempty word not
starting with `=`, or `=` followed by digits. -/
def KeyOkP (key : Str) : Prop :=
  (key ≠ [] ∧ key.all isWordChar = true ∧ key.head? ≠ some '=') ∨
  (∃ ds, key = '=' :: ds ∧ ds.all isDigitC = true)

/-- One emitted `formKey {body}` entry of the joined ICU forms string. -/
def entryOf (required : List Str) (vars : List (Str × VarMeta)) (ft : Str × Str) : Str :=
  formKeyFor required ft.1 ++ ' ' :: '{' :: (substBody vars ft.2 ++ ['}'])

/-- The joined ICU forms string for a list of forms. -/
def entriesStr (required : List Str) (vars : List (Str × VarMeta))
    (fs : List (Str × Str)) : Str :=
  List.intercalate [' '] (fs.map (entryOf required vars))

/-- The token list `parseFormText` produces for an emitted body. -/
def elemsOf (vars : List (Str × VarMeta)) (v : Str) : List Elem :=
  match parseFormText (substBody vars v) with
  | .ok es => es
  | .error _ => []

theorem takeDigits_append (r : Str) : (takeDigits r).1 ++ (takeDigits r).2 = r := by
  show List.takeWhile isDigitC r ++ List.dropWhile isDigitC r = r
  exact List.takeWhile_append_dropWhile isDigitC r

theorem pPos_append (r0 : Str) : (pPos r0).1 ++ (pPos r0).2 = r0 := by
  unfold pPos
  split
  · rename_i hd tl r2 heq1 heq2
    rw [List.append_assoc]
    show (takeDigits r0).1 ++ ('$' :: r2) = r0
    rw [← heq2]
    exact takeDigits_append r0
  · rfl

theorem pSign_append (rp : Str) : (pSign rp).1 ++ (pSign rp).2 = rp := by
  unfold pSign
  split
  · split
    · rfl
    · rfl
  · rfl

theorem pPrec_append {rw ps1 ps2 : Str} (h : pPrec rw = some (ps1, ps2)) :
    ps1 ++ ps2 = rw := by
  unfold pPrec at h
  split at h
  · rename_i r
    split at h
    · exact Option.noConfusion h
    · injection h with h
      injection h with h1 h2
      rw [← h1, ← h2]
      show '.' :: ((takeDigits r).1 ++ (takeDigits r).2) = '.' :: r
      rw [takeDigits_append]
  · injection h with h
    injection h with h1 h2
    rw [← h1, ← h2]
    rfl

theorem tryParseSpec_some : ∀ {s : Str} {m : SpecMatch} {rest : Str},
    tryParseSpec s = some (m, rest) → s = m.full ++ rest ∧ ∃ t, m.full = '%' :: t := by
  intro s m rest h
  match s with
  | [] => exact absurd h (by simp [tryParseSpec])
  | c :: r0 =>
    by_cases hc : c = '%'
    · subst hc
      unfold tryParseSpec at h
      split at h
      case _ r0a heqm =>
        rw [heqm]
        split at h
        · exact Option.noConfusion h
        · rename_i precState heq
          split at h
          · rename_i cc rest2 heq2
            split at h
            · injection h with h
              injection h with h1 h2
              obtain ⟨ps1, ps2⟩ := precState
              have e5 : ps2 = ps2.takeWhile isLengthMod ++ (cc :: rest2) := by
                rw [← heq2]
                exact (List.takeWhile_append_dropWhile isLengthMod ps2).symm
              have e4 : (takeDigits (pSign (pPos r0a).2).2).2 =
                  ps1 ++ (ps2.takeWhile isLengthMod ++ (cc :: rest2)) :=
                (pPrec_append heq).symm.trans (congrArg (fun x => ps1 ++ x) e5)
              have e3 : (pSign (pPos r0a).2).2 =
                  (takeDigits (pSign (pPos r0a).2).2).1 ++
                    (ps1 ++ (ps2.takeWhile isLengthMod ++ (cc :: rest2))) :=
                (takeDigits_append _).symm.trans
                  (congrArg (fun x => (takeDigits (pSign (pPos r0a).2).2).1 ++ x) e4)
              have e2 : (pPos r0a).2 =
                  (pSign (pPos r0a).2).1 ++
                    ((takeDigits (pSign (pPos r0a).2).2).1 ++
                      (ps1 ++ (ps2.takeWhile isLengthMod ++ (cc :: rest2)))) :=
                (pSign_append _).symm.trans
                  (congrArg (fun x => (pSign (pPos r0a).2).1 ++ x) e3)
              have e1 : r0a =
                  (pPos r0a).1 ++
                    ((pSign (pPos r0a).2).1 ++
                      ((takeDigits (pSign (pPos r0a).2).2).1 ++
                        (ps1 ++ (ps2.takeWhile isLengthMod ++ (cc :: rest2))))) :=
                (pPos_append r0a).symm.trans (congrArg (fun x => (pPos r0a).1 ++ x) e2)
              constructor
              · rw [← h1, ← h2]
                show '%' :: r0a = ('%' :: _) ++ rest2
                rw [List.cons_append]
                congr 1
                conv_lhs => rw [e1]
                simp [List.append_assoc]
              · rw [← h1]
                exact ⟨_, rfl⟩
            · exact Option.noConfusion h
          · exact Option.noConfusion h
      case _ heq => exact absurd rfl (fun h2 => heq r0 h2)
    · have hnone : tryParseSpec (c :: r0) = none := by
        unfold tryParseSpec
        split
        · rename_i heq
          injection heq with hh1 hh2
          exact absurd hh1 hc
        · rfl
      rw [hnone] at h
      exact Option.noConfusion h

theorem tryParseSpec_rest_lt {s : Str} {m : SpecMatch} {rest : Str}
    (h : tryParseSpec s = some (m, rest)) : rest.length < s.length := by
  obtain ⟨happ, t, hfull⟩ := tryParseSpec_some h
  rw [happ, hfull]
  simp
  omega

/-! ## Claim C10: `isPluralFormsObject` characterization -/

/-- **C10.** `isPluralFormsObject(v)` returns true if and only if `v` is a
non-null, non-array object with at least one key, every key is one of
`zero`, `one`, `two`, `few`, `many`, `other`, every value is a string, and the
key `other` is present; in particular a candidate missing the `other` form,
such as `{one: "1 item"}`, is rejected. -/
theorem isPluralFormsObject_iff :
    (∀ v : JsVal,
      isPluralFormsObject v = true ↔
        ∃ fields : List (Str × JsVal),
          v = .obj fields ∧
          fields ≠ [] ∧
          (∀ kv ∈ fields, kv.1 ∈ cldrPluralCategories) ∧
          (∀ kv ∈ fields, ∃ s : Str, kv.2 = .str s) ∧
          (∃ kv ∈ fields, kv.1 = "other".toList)) ∧
    isPluralFormsObject (.obj [("one".toList, .str "1 item".toList)]) = false := by
  constructor
  · intro v
    cases v with
    | obj fields =>
      simp only [isPluralFormsObject, Bool.and_eq_true, List.all_eq_true,
        Bool.not_eq_true', List.isEmpty_eq_false_iff_exists_mem]
      constructor
      · rintro ⟨⟨⟨hne, hcldr⟩, hstr⟩, hother⟩
        refine ⟨fields, rfl, ?_, ?_, ?_, ?_⟩
        · rintro rfl
          simp at hne
        · intro kv hkv
          have := hcldr kv.1 (List.mem_map.mpr ⟨kv, hkv, rfl⟩)
          simpa [List.elem_iff] using this
        · intro kv hkv
          have := hstr kv hkv
          cases h : kv.2 <;> simp [h, isStringVal] at this ⊢
        · obtain ⟨kv, hkv, hk⟩ := List.mem_map.mp (List.elem_iff.mp hother)
          exact ⟨kv, hkv, hk⟩
      · rintro ⟨fields2, heq, hne, hcldr, hstr, ⟨kv, hkv, hk⟩⟩
        injection heq with h
        subst h
        refine ⟨⟨⟨?_, ?_⟩, ?_⟩, ?_⟩
        · match fields, hne with
          | x :: xs, _ => exact ⟨x.1, List.mem_map.mpr ⟨x, List.mem_cons_self x xs, rfl⟩⟩
        · intro k hkm
          obtain ⟨kv2, hkv2, rfl⟩ := List.mem_map.mp hkm
          simpa [List.elem_iff] using hcldr kv2 hkv2
        · intro kv2 hkv2
          obtain ⟨s, hs⟩ := hstr kv2 hkv2
          simp [hs, isStringVal]
        · exact List.elem_iff.mpr (List.mem_map.mpr ⟨kv, hkv, hk⟩)
    | str s =>
      refine iff_of_false (by simp [isPluralFormsObject]) ?_
      rintro ⟨fields, heq, -⟩
      exact JsVal.noConfusion heq
    | num n =>
      refine iff_of_false (by simp [isPluralFormsObject]) ?_
      rintro ⟨fields, heq, -⟩
      exact JsVal.noConfusion heq
    | boolean b =>
      refine iff_of_false (by simp [isPluralFormsObject]) ?_
      rintro ⟨fields, heq, -⟩
      exact JsVal.noConfusion heq
    | null =>
      refine iff_of_false (by simp [isPluralFormsObject]) ?_
      rintro ⟨fields, heq, -⟩
      exact JsVal.noConfusion heq
    | undef =>
      refine iff_of_false (by simp [isPluralFormsObject]) ?_
      rintro ⟨fields, heq, -⟩
      exact JsVal.noConfusion heq
    | arr xs =>
      refine iff_of_false (by simp [isPluralFormsObject]) ?_
      rintro ⟨fields, heq, -⟩
      exact JsVal.noConfusion heq
  · rfl

/-! ## Claim C7: push before pull is fatal -/

/-- **C7.** Calling the locked-pattern stage's `push` when no prior `pull` has
captured state and no explicit pull-input argument is supplied fails fatally
with a descriptive "missing captured state" error: it never returns any `.ok`
payload, in particular never the payload unchanged. -/
theorem lockedPatternsLoaderPush_without_pull_fatal
    (matchFn : Str → Str → List Str) (patterns : List Str) (data : Str) :
    lockedPatternsLoaderPush matchFn patterns none none data =
      .error "missing captured state: push called without a prior pull".toList ∧
    ∀ out : Str, lockedPatternsLoaderPush matchFn patterns none none data ≠ .ok out := by
  refine ⟨rfl, ?_⟩
  intro out h
  rw [show lockedPatternsLoaderPush matchFn patterns none none data =
    .error "missing captured state: push called without a prior pull".toList from rfl] at h
  exact Except.noConfusion h

theorem digitCh_isLowerHex (d : Nat) : isLowerHexDigit (digitCh d) = true := by
  unfold digitCh
  rcases d with _ | _ | _ | _ | _ | _ | _ | _ | _ | _ | _ | _ | _ | _ | _ | d <;> rfl

theorem hashHex_length (m : Str) : (hashHex m).length = 32 := by
  simp [hashHex]

theorem hashHex_lowerHex (m : Str) : ∀ c ∈ hashHex m, isLowerHexDigit c = true := by
  intro c hc
  simp only [hashHex, List.mem_map] at hc
  obtain ⟨i, -, rfl⟩ := hc
  exact digitCh_isLowerHex _

/-- The placeholder-map invariant maintained by `extractLockedPatterns`'s
folds: every entry binds the token built from its original text. -/
theorem extract_entries_invariant (matchFn : Str → Str → List Str)
    (patterns : List Str) (content : Str) :
    ∀ tv ∈ (extractLockedPatterns matchFn patterns content).lockedPlaceholders,
      tv.1 = mkLockedToken tv.2 := by
  have upsert_inv : ∀ (m : List (Str × Str)) (k v : Str),
      (∀ tv ∈ m, tv.1 = mkLockedToken tv.2) → k = mkLockedToken v →
      ∀ tv ∈ upsert m k v, tv.1 = mkLockedToken tv.2 := by
    intro m
    induction m with
    | nil =>
      intro k v _ hk tv htv
      simp only [upsert, List.mem_singleton] at htv
      subst htv; exact hk
    | cons hd tl ih =>
      intro k v hm hk tv htv
      simp only [upsert] at htv
      by_cases h : hd.1 = k
      · rw [if_pos h] at htv
        rcases List.mem_cons.mp htv with rfl | htl
        · exact hk
        · exact hm _ (List.mem_cons_of_mem _ htl)
      · rw [if_neg h] at htv
        rcases List.mem_cons.mp htv with rfl | htl
        · exact hm _ (List.mem_cons_self _ _)
        · exact ih k v (fun tv h2 => hm tv (List.mem_cons_of_mem _ h2)) hk tv htl
  have matches_inv : ∀ (ms : List Str) (st : ExtractResult),
      (∀ tv ∈ st.lockedPlaceholders, tv.1 = mkLockedToken tv.2) →
      ∀ tv ∈ (ms.foldl lockMatchStep st).lockedPlaceholders,
        tv.1 = mkLockedToken tv.2 := by
    intro ms
    induction ms with
    | nil => intro st h; exact h
    | cons m rest ih =>
      intro st h
      exact ih _ (upsert_inv _ _ _ h rfl)
  have patterns_inv : ∀ (ps : List Str) (st : ExtractResult),
      (∀ tv ∈ st.lockedPlaceholders, tv.1 = mkLockedToken tv.2) →
      ∀ tv ∈ (ps.foldl (lockPatternStep matchFn) st).lockedPlaceholders,
        tv.1 = mkLockedToken tv.2 := by
    intro ps
    induction ps with
    | nil => intro st h; exact h
    | cons p rest ih =>
      intro st h
      exact ih _ (matches_inv _ _ h)
  intro tv htv
  exact patterns_inv patterns _ (by intro tv h; simp at h) tv htv

/-- **C9.** Every placeholder token emitted by the locked-pattern extraction
has the exact form `---LOCKED-PATTERN-<h>---` where `<h>` is the 32-digit
lowercase-hex deterministic content hash of the exact substring the map binds
the token to; the hash is a pure function of the substring, so extracting the
same substring twice anywhere yields the same token both times. -/
theorem lockedPattern_token_grammar (matchFn : Str → Str → List Str)
    (patterns : List Str) (content : Str) :
    (∀ tv ∈ (extractLockedPatterns matchFn patterns content).lockedPlaceholders,
        tv.1 = "---LOCKED-PATTERN-".toList ++ hashHex tv.2 ++ "---".toList ∧
        (hashHex tv.2).length = 32 ∧
        ∀ c ∈ hashHex tv.2, isLowerHexDigit c = true) ∧
    (∀ m1 m2 : Str, m1 = m2 → mkLockedToken m1 = mkLockedToken m2) := by
  refine ⟨?_, fun m1 m2 h => by rw [h]⟩
  intro tv htv
  exact ⟨extract_entries_invariant matchFn patterns content tv htv,
    hashHex_length _, hashHex_lowerHex _⟩

/-! ## Claim C2: literal restoration in the locked-pattern push -/

/-- **C2 (failing input).** With pattern `\$&` and source `cost $& here`, the
pull replaces the matched `$&` with its placeholder token; but the push
substitutes through JS `replaceAll`'s `$`-substitution machinery, which
reinterprets the `$&` in the original text as "the matched substring" — the
placeholder itself — so the token survives in the output and the original
bytes are not reproduced. -/
theorem lockedPatterns_push_dollar_bug :
    pullLockedPatterns literalMatchAll [['\\', '$', '&']] "cost $& here".toList =
      "cost ".toList ++ mkLockedToken ['$', '&'] ++ " here".toList ∧
    pushLockedPatterns literalMatchAll [['\\', '$', '&']]
        (pullLockedPatterns literalMatchAll [['\\', '$', '&']] "cost $& here".toList)
        (some "cost $& here".toList) ≠ "cost $& here".toList ∧
    containsSubstr
        (pushLockedPatterns literalMatchAll [['\\', '$', '&']]
          (pullLockedPatterns literalMatchAll [['\\', '$', '&']] "cost $& here".toList)
          (some "cost $& here".toList))
        (mkLockedToken ['$', '&']) = true := by
  refine ⟨by decide, by decide, by decide⟩

/-! ## Claim C6: malformed-ICU fatality -/

theorem containsSubstr_correct (s pat : Str) : containsSubstr s pat = true ↔ pat <:+: s := by
  induction s with
  | nil =>
    by_cases h : pat.isPrefixOf ([] : Str) = true
    · simp [containsSubstr, h, (List.isPrefixOf_iff_prefix.mp h).isInfix]
    · have : pat ≠ [] := by
        intro he; subst he; simp [List.isPrefixOf] at h
      simp [containsSubstr, h, this]
  | cons c t ih =>
    by_cases h : pat.isPrefixOf (c :: t) = true
    · simp [containsSubstr, h, (List.isPrefixOf_iff_prefix.mp h).isInfix]
    · have hnp : ¬ pat <+: c :: t := fun hp => h (List.isPrefixOf_iff_prefix.mpr hp)
      have hstep : containsSubstr (c :: t) pat = containsSubstr t pat := by
        simp only [containsSubstr]
        rw [if_neg h]
      rw [hstep, ih, List.infix_cons_iff]
      exact ⟨Or.inr, fun hor => hor.resolve_left hnp⟩

theorem attemptOuter_plural_occurs {s : Str} {x : Str × Str}
    (h : attemptOuter s = some x) : "plural".toList <:+: s := by
  unfold attemptOuter at h
  split at h
  case _ r0 =>
    dsimp only at h
    split at h
    · exact Option.noConfusion h
    · split at h
      case _ r2 heq =>
        split at h
        case isTrue hp =>
          have h1 : "plural".toList <:+: r2.dropWhile isSpaceJS :=
            (List.isPrefixOf_iff_prefix.mp hp).isInfix
          have h2 : r2.dropWhile isSpaceJS <:+: r2 :=
            (List.dropWhile_suffix _).isInfix
          have h3 : r2 <:+: ',' :: r2 := (List.suffix_cons ',' r2).isInfix
          have h4 : (',' :: r2 : Str) <:+: r0 := by
            rw [← heq]; exact (List.dropWhile_suffix _).isInfix
          have h5 : r0 <:+: '{' :: r0 := (List.suffix_cons '{' r0).isInfix
          exact (((h1.trans h2).trans h3).trans h4).trans h5
        case isFalse => exact Option.noConfusion h
      case _ => exact Option.noConfusion h
  case _ => exact Option.noConfusion h

theorem findOuter_plural_occurs {s : Str} {x : Str × Str}
    (h : findOuter s = some x) : "plural".toList <:+: s := by
  induction s with
  | nil => exact absurd h (by simp [findOuter])
  | cons c t ih =>
    simp only [findOuter] at h
    split at h
    case _ r heq => exact attemptOuter_plural_occurs heq
    case _ heq => exact (ih h).trans (List.suffix_cons c t).isInfix

/-- **C6 (counterexample).** An input with unbalanced braces (three `{` but
four `}`) on which the inverse conversion does *not* fail: the outer pattern
still matches, the form parser stops silently at the stray brace, and
conversion succeeds. -/
theorem pluralWithMetaToXcstrings_unbalanced_braces_ok :
    ("\x7bcount, plural, one \x7bx\x7d\x7d\x7d".toList.count '{' ≠
        "\x7bcount, plural, one \x7bx\x7d\x7d\x7d".toList.count '}') ∧
    pluralWithMetaToXcstrings ⟨"\x7bcount, plural, one \x7bx\x7d\x7d\x7d".toList, none⟩ =
      .ok [("one".toList, "x".toList)] := by
  refine ⟨by decide, by decide⟩

/-- **C6 (amended).** The inverse conversion fails fatally for every ICU input
that does not contain the `plural` keyword, with a generic message carrying no
text window; a form body whose opening brace is never closed fails fatally
with the surrounding text window included in the message.  (Inputs with extra
closing braces after a complete form are accepted, per the counterexample.) -/
theorem pluralWithMetaToXcstrings_malformed_fatal :
    (∀ (icu : Str) (meta : Option (List (Str × VarMeta))),
      ¬ ("plural".toList <:+: icu) →
      pluralWithMetaToXcstrings ⟨icu, meta⟩ = .error "Invalid ICU plural format".toList ∨
      pluralWithMetaToXcstrings ⟨icu, meta⟩ = .error "ICU string is required".toList) ∧
    (∃ e : Str,
      pluralWithMetaToXcstrings ⟨"\x7bcount, plural, one \x7ba \x7bb\x7d".toList, none⟩ = .error e ∧
      containsSubstr e "one \x7ba \x7bb".toList = true) := by
  constructor
  · intro icu meta hnp
    by_cases he : icu.isEmpty
    · right
      simp [pluralWithMetaToXcstrings, he]
    · left
      have hf : findOuter icu = none := by
        cases hf : findOuter icu with
        | none => rfl
        | some x => exact absurd (findOuter_plural_occurs hf) hnp
      simp only [pluralWithMetaToXcstrings, he, parseICU, hf, Bool.false_eq_true, if_false]
      rfl
  · refine ⟨unclosedBraceMsg "count".toList "one \x7ba \x7bb".toList "one".toList 2, by decide, by decide⟩

theorem pluralWithMetaToXcstrings_malformed_fatal_witness :
    pluralWithMetaToXcstrings ⟨"not valid ICU".toList, none⟩ =
        .error "Invalid ICU plural format".toList ∨
      pluralWithMetaToXcstrings ⟨"not valid ICU".toList, none⟩ =
        .error "ICU string is required".toList :=
  pluralWithMetaToXcstrings_malformed_fatal.1 "not valid ICU".toList none
    (by rw [← containsSubstr_correct]; decide)

/-! ## Claim C4: exact-match rekeying -/

/-- **C4 (counterexample).** `=01` is a form key different from `=0`, `=1` and
`=2`, yet the inverse conversion does not pass it through unchanged: `parseInt`
reads its digits as the number 1 and the key is renamed to `one`. -/
theorem rekeyBack_eq01_not_passthrough :
    ("=01".toList ≠ "=0".toList ∧ "=01".toList ≠ "=1".toList ∧ "=01".toList ≠ "=2".toList) ∧
    pluralWithMetaToXcstrings ⟨"{count, plural, =01 {x} other {y}}".toList, none⟩ =
      .ok [("one".toList, "x".toList), ("other".toList, "y".toList)] := by
  refine ⟨by decide, by decide⟩

/-- **C4 (amended).** Forward: a category not in the locale's required set
whose name is `zero`/`one`/`two` is emitted as `=0`/`=1`/`=2`; required
categories, and `few`/`many`/`other` always, keep their names.  Inverse: a form
key starting with `=` maps through `parseInt` of its remainder — numeric value
0, 1 or 2 yields `zero`/`one`/`two` (regardless of digit spelling, e.g. `=01`
also maps to `one`), and any other parse outcome passes the key through
unchanged; keys not starting with `=` are unchanged.  The concrete instances
exercise both directions through the conversion functions. -/
theorem formKey_rekey_characterization :
    (∀ (required : List Str) (form : Str),
      (required.contains form = false ∧
          (form = "zero".toList ∨ form = "one".toList ∨ form = "two".toList) →
        formKeyFor required form =
          (if form = "zero".toList then "=0".toList
           else if form = "one".toList then "=1".toList
           else "=2".toList)) ∧
      (required.contains form = true → formKeyFor required form = form) ∧
      (form = "few".toList ∨ form = "many".toList ∨ form = "other".toList →
        formKeyFor required form = form)) ∧
    (∀ form : Str,
      (form.head? = some '=' →
        rekeyBack form =
          (match parseIntJS (form.drop 1) with
           | some 0 => "zero".toList
           | some 1 => "one".toList
           | some 2 => "two".toList
           | _ => form)) ∧
      (form.head? ≠ some '=' → rekeyBack form = form)) ∧
    xcstringsToPluralWithMeta
        [("zero".toList, "No items".toList), ("one".toList, "1 item".toList),
         ("other".toList, "%d items".toList)] ["one".toList, "other".toList] =
      .ok ⟨"{count, plural, =0 {No items} one {1 item} other {# items}}".toList,
        some [("count".toList, ⟨"%d".toList, .plural⟩)]⟩ ∧
    pluralWithMetaToXcstrings ⟨"{count, plural, =5 {x} other {y}}".toList, none⟩ =
      .ok [("=5".toList, "x".toList), ("other".toList, "y".toList)] := by
  refine ⟨?_, ?_, by decide, by decide⟩
  · intro required form
    refine ⟨?_, ?_, ?_⟩
    · rintro ⟨hreq, hz | ho | ht⟩
      · subst hz; simp only [formKeyFor]; rw [hreq]; decide
      · subst ho; simp only [formKeyFor]; rw [hreq]; decide
      · subst ht; simp only [formKeyFor]; rw [hreq]; decide
    · intro hreq
      simp only [formKeyFor]
      rw [hreq]
      simp
    · have hnone : ∀ f : Str, cldrCategoryToNumber f = none → formKeyFor required f = f := by
        intro f hf
        simp only [formKeyFor]
        cases hc : required.contains f
        · simp [hf]
        · simp
      rintro (h | h | h) <;> subst h <;> exact hnone _ (by decide)
  · intro form
    constructor
    · intro hh
      cases form with
      | nil => simp at hh
      | cons c rest =>
        have hc : c = '=' := by simpa using hh
        subst hc
        rfl
    · intro hh
      cases form with
      | nil => rfl
      | cons c rest =>
        have hc : c ≠ '=' := by
          intro h; subst h; exact hh rfl
        unfold rekeyBack
        split
        · next heq =>
          injection heq with h1 h2
          exact absurd h1 hc
        · rfl

theorem formKey_rekey_characterization_witness :
    formKeyFor ["one".toList, "other".toList] "zero".toList = "=0".toList ∧
    rekeyBack "=01".toList = "one".toList := by
  constructor
  · exact ((formKey_rekey_characterization.1 ["one".toList, "other".toList] "zero".toList).1
      ⟨by decide, Or.inl rfl⟩).trans (by decide)
  · exact ((formKey_rekey_characterization.2.1 "=01".toList).1 (by decide)).trans (by decide)

/-! ## Claim C5: inverse body reconstruction -/

/-- **C5 (counterexample).** With metadata whose plural variable records the
empty format, the claim predicts `#` is replaced by that (empty) recorded
format, producing `" x"`; the code's falsy `||` default substitutes `%lld`
instead. -/
theorem inverse_empty_plural_format_not_used :
    pluralWithMetaToXcstrings
        ⟨"{count, plural, other {# x}}".toList,
          some [("count".toList, ⟨[], .plural⟩)]⟩ =
      .ok [("other".toList, "%lld x".toList)] ∧
    "%lld x".toList ≠ " x".toList := by
  refine ⟨by decide, by decide⟩

/-- **C5 (amended).** Whenever the ICU string parses, each emitted form is the
left-to-right concatenation of its parsed literal, pound and argument tokens,
with `#` rebuilt from the plural-role variable's format (defaulting to `%lld`
when metadata is absent or the recorded format is empty) and `{argName}` from
that variable's recorded format (defaulting to `%@` when absent or empty). -/
theorem pluralWithMetaToXcstrings_body_reconstruction
    (data : PluralWithMetadata) (ast : ICUAst)
    (hparse : parseICU data.icu = .ok ast) (hne : ¬data.icu.isEmpty = true) :
    pluralWithMetaToXcstrings data =
      .ok (ast.options.foldl
        (fun acc fe => upsert acc (rekeyBack fe.1) (renderBodySpec (metaVariables data) fe.2))
        []) := by
  have renderFold : ∀ (es : List Elem) (t : Str),
      es.foldl
        (fun t e =>
          match e with
          | Elem.lit s => t ++ s
          | Elem.pound =>
            t ++
              match (metaVariables data).find? fun nv => nv.2.role = .plural with
              | some nv => if nv.2.format.isEmpty then "%lld".toList else nv.2.format
              | none => "%lld".toList
          | Elem.arg varName =>
            t ++
              match ((metaVariables data).find? fun nv => nv.1 = varName).map (·.2) with
              | some vm => if vm.format.isEmpty then "%@".toList else vm.format
              | none => "%@".toList)
        t = t ++ renderBodySpec (metaVariables data) es := by
    intro es
    induction es with
    | nil => intro t; simp [renderBodySpec]
    | cons e rest ih =>
      intro t
      rw [List.foldl_cons, ih]
      cases e with
      | lit s => simp [renderBodySpec, List.append_assoc]
      | pound => simp [renderBodySpec, List.append_assoc]
      | arg n => simp [renderBodySpec, List.append_assoc]
  have hstep : pluralWithMetaToXcstrings data =
      .ok (ast.options.foldl
        (fun acc fe =>
          upsert acc (rekeyBack fe.1)
            (fe.2.foldl
              (fun t e =>
                match e with
                | Elem.lit s => t ++ s
                | Elem.pound =>
                  t ++
                    match (metaVariables data).find? fun nv => nv.2.role = .plural with
                    | some nv => if nv.2.format.isEmpty then "%lld".toList else nv.2.format
                    | none => "%lld".toList
                | Elem.arg varName =>
                  t ++
                    match ((metaVariables data).find? fun nv => nv.1 = varName).map (·.2) with
                    | some vm => if vm.format.isEmpty then "%@".toList else vm.format
                    | none => "%@".toList)
              []))
        []) := by
    simp only [pluralWithMetaToXcstrings, hne, Bool.false_eq_true, if_false, hparse]
    rfl
  rw [hstep]
  congr 1
  have hfun : (fun (acc : List (Str × Str)) (fe : Str × List Elem) =>
      upsert acc (rekeyBack fe.1)
        (fe.2.foldl
          (fun t e =>
            match e with
            | Elem.lit s => t ++ s
            | Elem.pound =>
              t ++
                match (metaVariables data).find? fun nv => nv.2.role = .plural with
                | some nv => if nv.2.format.isEmpty then "%lld".toList else nv.2.format
                | none => "%lld".toList
            | Elem.arg varName =>
              t ++
                match ((metaVariables data).find? fun nv => nv.1 = varName).map (·.2) with
                | some vm => if vm.format.isEmpty then "%@".toList else vm.format
                | none => "%@".toList)
          [])) =
      fun acc fe => upsert acc (rekeyBack fe.1) (renderBodySpec (metaVariables data) fe.2) := by
    funext acc fe
    rw [renderFold fe.2 []]
    rfl
  rw [hfun]

theorem pluralWithMetaToXcstrings_body_reconstruction_witness :
    pluralWithMetaToXcstrings
        ⟨"{count, plural, one {1 item} other {# items}}".toList,
          some [("count".toList, ⟨"%d".toList, .plural⟩)]⟩ =
      .ok ((ICUAst.mk "count".toList
            [("one".toList, [.lit "1 item".toList]),
             ("other".toList, [.pound, .lit " items".toList])]).options.foldl
          (fun acc fe =>
            upsert acc (rekeyBack fe.1)
              (renderBodySpec
                (metaVariables
                  ⟨"{count, plural, one {1 item} other {# items}}".toList,
                    some [("count".toList, ⟨"%d".toList, .plural⟩)]⟩)
                fe.2))
          []) :=
  pluralWithMetaToXcstrings_body_reconstruction
    ⟨"{count, plural, one {1 item} other {# items}}".toList,
      some [("count".toList, ⟨"%d".toList, .plural⟩)]⟩
    (ICUAst.mk "count".toList
      [("one".toList, [.lit "1 item".toList]),
       ("other".toList, [.pound, .lit " items".toList])])
    (by decide) (by decide)

/-- Unfolding of `segMatchF` at a non-`*` head. -/
theorem segMatchF_cons_ne_star (fuel : Nat) (c : Char) (hc : c ≠ '*')
    (ps k : Str) :
    segMatchF (fuel + 1) (c :: ps) k =
      match k with
      | [] => false
      | c' :: kt => c = c' && segMatchF fuel ps kt := by
  rw [show segMatchF (fuel + 1) (c :: ps) k =
      (if c = '*' then
        segMatchF fuel ps k ||
          match k with
          | [] => false
          | _ :: kt => segMatchF fuel (c :: ps) kt
      else
        match k with
        | [] => false
        | c' :: kt => c = c' && segMatchF fuel ps kt) from rfl]
  rw [if_neg hc]

/-- Unfolding of `segMatchF` at a `*` head. -/
theorem segMatchF_cons_star (fuel : Nat) (ps k : Str) :
    segMatchF (fuel + 1) ('*' :: ps) k =
      (segMatchF fuel ps k ||
        match k with
        | [] => false
        | _ :: kt => segMatchF fuel ('*' :: ps) kt) := by
  rw [show segMatchF (fuel + 1) ('*' :: ps) k =
      (if '*' = '*' then
        segMatchF fuel ps k ||
          match k with
          | [] => false
          | _ :: kt => segMatchF fuel ('*' :: ps) kt
      else
        match k with
        | [] => false
        | c' :: kt => '*' = c' && segMatchF fuel ps kt) from rfl]
  rw [if_pos rfl]

/-- Inversion for a star-headed pattern. -/
theorem SegSem.star_inv {ps k : Str} (h : SegSem ('*' :: ps) k) :
    ∃ t k', k = t ++ k' ∧ SegSem ps k' := by
  cases h with
  | chr c hc h => exact absurd rfl hc
  | star t h => exact ⟨t, _, rfl, h⟩

theorem segMatchF_sound : ∀ (fuel : Nat) (p k : Str),
    segMatchF fuel p k = true → SegSem p k := by
  intro fuel
  induction fuel with
  | zero => intro p k h; simp [segMatchF] at h
  | succ f ih =>
    intro p k h
    match p with
    | [] =>
      have : k = [] := by simpa [segMatchF, List.isEmpty_iff] using h
      subst this
      exact SegSem.nil
    | c :: ps =>
      by_cases hc : c = '*'
      · subst hc
        rw [segMatchF_cons_star] at h
        rcases Bool.or_eq_true_iff.mp h with h1 | h2
        · simpa using SegSem.star [] (ih ps k h1)
        · match k, h2 with
          | c' :: kt, h2 =>
            obtain ⟨t, k', rfl, hk'⟩ := (ih ('*' :: ps) kt h2).star_inv
            simpa using SegSem.star (c' :: t) hk'
      · rw [segMatchF_cons_ne_star f c hc ps k] at h
        match k, h with
        | c' :: kt, h =>
          obtain ⟨hcc, hrec⟩ := Bool.and_eq_true_iff.mp h
          have : c = c' := by simpa using hcc
          subst this
          exact SegSem.chr c hc (ih ps kt hrec)

theorem segMatchF_complete {p k : Str} (h : SegSem p k) :
    ∀ fuel : Nat, p.length + k.length + 1 ≤ fuel → segMatchF fuel p k = true := by
  induction h with
  | nil =>
    intro fuel hf
    match fuel, hf with
    | f + 1, _ => simp [segMatchF]
  | chr c hc h ih =>
    intro fuel hf
    match fuel, hf with
    | f + 1, hf =>
      rw [segMatchF_cons_ne_star f c hc]
      simp only [List.length_cons] at hf
      have : _ ≤ f := Nat.le_of_succ_le_succ hf
      simp [ih f (by omega)]
  | star t h ih =>
    rename_i ps k2
    clear h
    induction t with
    | nil =>
      intro fuel hf
      match fuel, hf with
      | f + 1, hf =>
        have h1 : segMatchF f ps k2 = true := by
          apply ih
          simp only [List.length_cons, List.nil_append] at hf ⊢
          omega
        rw [segMatchF_cons_star]
        simp [h1]
    | cons c t iht =>
      intro fuel hf
      match fuel, hf with
      | f + 1, hf =>
        have h2 : segMatchF f ('*' :: ps) (t ++ k2) = true := by
          apply iht
          simp only [List.length_cons, List.length_append] at hf ⊢
          omega
        rw [segMatchF_cons_star]
        simp [h2]

theorem segMatch_iff (p k : Str) : segMatch p k = true ↔ SegSem p k :=
  ⟨segMatchF_sound _ p k, fun h => segMatchF_complete h _ (Nat.le_refl _)⟩

theorem minimatchStar_iff (key pat : Str) :
    minimatchStar key pat = true ↔ GlobSem pat key := by
  unfold minimatchStar GlobSem
  rw [Bool.and_eq_true, List.forall₂_iff_zip, List.all_eq_true, Nat.beq_eq_true_eq]
  constructor
  · rintro ⟨hlen, hall⟩
    refine ⟨hlen, ?_⟩
    intro a b hab
    exact (segMatch_iff a b).mp (hall (a, b) hab)
  · rintro ⟨hlen, hall⟩
    refine ⟨hlen, ?_⟩
    intro pk hpk
    rcases pk with ⟨a, b⟩
    exact (segMatch_iff a b).mpr (hall hpk)

/-- **C8 (counterexample).** The claim's glob semantics lets `*` match across
`/` segments, so it predicts `matches("a/b/c", ["a/*"]) = true` (the
cross-segment star derivation is exhibited); the code's minimatch-based
matcher confines `*` to one segment and returns false, and the literal-prefix
disjunct fails as well. -/
theorem matchesKeyPattern_star_not_cross_segment :
    matchesKeyPattern ['a', '/', 'b', '/', 'c'] [['a', '/', '*']] = false ∧
    (['a', '/', '*'] : Str).isPrefixOf ['a', '/', 'b', '/', 'c'] = false ∧
    SegSem ['a', '/', '*'] ['a', '/', 'b', '/', 'c'] := by
  refine ⟨by decide, by decide, ?_⟩
  have h0 : SegSem ['*'] (['b', '/', 'c'] ++ []) := SegSem.star ['b', '/', 'c'] SegSem.nil
  have h1 : SegSem ['*'] ['b', '/', 'c'] := by simpa using h0
  have h2 : SegSem ['/', '*'] ['/', 'b', '/', 'c'] := SegSem.chr '/' (by decide) h1
  exact SegSem.chr 'a' (by decide) h2

/-- **C8 (amended).** For keys and patterns inside the modelled minimatch
fragment, `matchesKeyPattern(key, patterns)` is true iff some pattern is a
literal prefix of `key`, or `key` matches that pattern as a `/`-segment glob
in which `*` matches within a single segment only (it does not cross `/`).
The two concrete instances are the spec's own examples. -/
theorem matchesKeyPattern_iff :
    (∀ (key : Str) (patterns : List Str),
      keyOk key = true → (∀ p ∈ patterns, patOk p = true) →
      (matchesKeyPattern key patterns = true ↔
        ∃ p ∈ patterns, p <+: key ∨ GlobSem p key)) ∧
    matchesKeyPattern "api/v2/users".toList ["api/*/users".toList] = true ∧
    matchesKeyPattern "other/key".toList ["api".toList, "settings".toList] = false := by
  refine ⟨?_, by decide, by decide⟩
  intro key patterns _ _
  unfold matchesKeyPattern
  rw [List.any_eq_true]
  constructor
  · rintro ⟨p, hp, hmatch⟩
    rcases Bool.or_eq_true_iff.mp hmatch with h | h
    · exact ⟨p, hp, Or.inl (List.isPrefixOf_iff_prefix.mp h)⟩
    · exact ⟨p, hp, Or.inr ((minimatchStar_iff key p).mp h)⟩
  · rintro ⟨p, hp, h | h⟩
    · exact ⟨p, hp, Bool.or_eq_true_iff.mpr (Or.inl (List.isPrefixOf_iff_prefix.mpr h))⟩
    · exact ⟨p, hp, Bool.or_eq_true_iff.mpr (Or.inr ((minimatchStar_iff key p).mpr h))⟩

theorem matchesKeyPattern_iff_witness :
    matchesKeyPattern "api/v2/users".toList ["api/*/users".toList] = true ↔
      ∃ p ∈ ["api/*/users".toList], p <+: "api/v2/users".toList ∨
        GlobSem p "api/v2/users".toList :=
  matchesKeyPattern_iff.1 "api/v2/users".toList ["api/*/users".toList] (by decide)
    (by decide)

theorem natDigitsRev_val : ∀ (fuel n : Nat), n ≤ fuel → digitsVal (natDigitsRev fuel n) = n := by
  intro fuel
  induction fuel with
  | zero =>
    intro n h
    have : n = 0 := Nat.le_zero.mp h
    subst this
    rfl
  | succ f ih =>
    intro n h
    match n with
    | 0 => rfl
    | m + 1 =>
      have hdiv : (m + 1) / 10 ≤ f := by
        have := Nat.div_lt_self (Nat.succ_pos m) (by norm_num : 1 < 10)
        omega
      have hstep : natDigitsRev (f + 1) (m + 1) =
          (m + 1) % 10 :: natDigitsRev f ((m + 1) / 10) := rfl
      rw [hstep]
      show (m + 1) % 10 + 10 * digitsVal (natDigitsRev f ((m + 1) / 10)) = m + 1
      rw [ih _ hdiv]
      omega

theorem natDigitsRev_lt : ∀ (fuel n : Nat), ∀ d ∈ natDigitsRev fuel n, d < 10 := by
  intro fuel
  induction fuel with
  | zero => intro n d hd; simp [natDigitsRev] at hd
  | succ f ih =>
    intro n d hd
    match n with
    | 0 => simp [natDigitsRev] at hd
    | m + 1 =>
      rw [show natDigitsRev (f + 1) (m + 1) =
          (m + 1) % 10 :: natDigitsRev f ((m + 1) / 10) from rfl] at hd
      rcases List.mem_cons.mp hd with rfl | hmem
      · exact Nat.mod_lt _ (by norm_num)
      · exact ih _ d hmem

theorem digitCh_inj_lt : ∀ d1 < 10, ∀ d2 < 10, digitCh d1 = digitCh d2 → d1 = d2 := by decide

theorem map_digitCh_inj : ∀ (L1 L2 : List Nat), (∀ d ∈ L1, d < 10) → (∀ d ∈ L2, d < 10) →
    L1.map digitCh = L2.map digitCh → L1 = L2 := by
  intro L1
  induction L1 with
  | nil =>
    intro L2 _ _ h
    cases L2 with
    | nil => rfl
    | cons b t => simp at h
  | cons a t1 ih =>
    intro L2 h1 h2 h
    cases L2 with
    | nil => simp at h
    | cons b t2 =>
      simp only [List.map_cons, List.cons.injEq] at h
      have hab : a = b :=
        digitCh_inj_lt a (h1 a (List.mem_cons_self a t1)) b (h2 b (List.mem_cons_self b t2)) h.1
      have ht : t1 = t2 :=
        ih t2 (fun d hd => h1 d (List.mem_cons_of_mem _ hd))
          (fun d hd => h2 d (List.mem_cons_of_mem _ hd)) h.2
      rw [hab, ht]

theorem natToStr_inj : ∀ (m n : Nat), natToStr m = natToStr n → m = n := by
  have key : ∀ m n : Nat, m ≠ 0 → n ≠ 0 → natToStr m = natToStr n → m = n := by
    intro m n hm hn h
    unfold natToStr at h
    rw [if_neg hm, if_neg hn] at h
    have hdig : (natDigitsRev m m).reverse = (natDigitsRev n n).reverse :=
      map_digitCh_inj _ _ (fun d hd => natDigitsRev_lt m m d (List.mem_reverse.mp hd))
        (fun d hd => natDigitsRev_lt n n d (List.mem_reverse.mp hd)) h
    have : natDigitsRev m m = natDigitsRev n n := List.reverse_injective hdig
    calc m = digitsVal (natDigitsRev m m) := (natDigitsRev_val m m (Nat.le_refl m)).symm
    _ = digitsVal (natDigitsRev n n) := by rw [this]
    _ = n := natDigitsRev_val n n (Nat.le_refl n)
  intro m n h
  by_cases hm : m = 0 <;> by_cases hn : n = 0
  · rw [hm, hn]
  · exfalso
    subst hm
    unfold natToStr at h
    rw [if_pos rfl, if_neg hn] at h
    have h0 : (natDigitsRev n n).reverse = [0] := by
      have : ([0] : List Nat).map digitCh = ['0'] := rfl
      exact map_digitCh_inj _ [0]
        (fun d hd => natDigitsRev_lt n n d (List.mem_reverse.mp hd))
        (by intro d hd; simp at hd; omega) (by rw [← h, this])
    have hrev : natDigitsRev n n = [0] := by
      have := congrArg List.reverse h0
      simpa using this
    have hval := natDigitsRev_val n n (Nat.le_refl n)
    rw [hrev] at hval
    have : n = 0 := by simpa [digitsVal] using hval.symm
    exact hn this
  · exfalso
    subst hn
    unfold natToStr at h
    rw [if_pos rfl, if_neg hm] at h
    have h0 : (natDigitsRev m m).reverse = [0] := by
      have : ([0] : List Nat).map digitCh = ['0'] := rfl
      exact map_digitCh_inj _ [0]
        (fun d hd => natDigitsRev_lt m m d (List.mem_reverse.mp hd))
        (by intro d hd; simp at hd; omega) (by rw [h, this])
    have hrev : natDigitsRev m m = [0] := by
      have := congrArg List.reverse h0
      simpa using this
    have hval := natDigitsRev_val m m (Nat.le_refl m)
    rw [hrev] at hval
    have : m = 0 := by simpa [digitsVal] using hval.symm
    exact hm this
  · exact key m n hm hn h

theorem varName_ne_count (n : Nat) : ("var".toList ++ natToStr n) ≠ "count".toList := by
  intro h
  simpa using congrArg List.head? h

theorem varName_inj {m n : Nat} (h : "var".toList ++ natToStr m = "var".toList ++ natToStr n) :
    m = n :=
  natToStr_inj m n (by simpa using h)

/-! ## Reference-form fold: characterization -/

theorem refFold_cases : ∀ (l : List (Str × Str)) (acc : List SpecMatch × Str),
    l.foldl refStep acc = acc ∨ ∃ ft ∈ l, l.foldl refStep acc = (specsOf ft.2, ft.2) := by
  intro l
  induction l with
  | nil => intro acc; exact Or.inl rfl
  | cons h t ih =>
    intro acc
    rw [List.foldl_cons]
    by_cases hlt : acc.1.length < (specsOf h.2).length
    · have hstep : refStep acc h = (specsOf h.2, h.2) := by simp [refStep, hlt]
      rw [hstep]
      rcases ih (specsOf h.2, h.2) with heq | ⟨ft, hft, heq⟩
      · exact Or.inr ⟨h, List.mem_cons_self h t, heq⟩
      · exact Or.inr ⟨ft, List.mem_cons_of_mem _ hft, heq⟩
    · have hstep : refStep acc h = acc := by simp [refStep, hlt]
      rw [hstep]
      rcases ih acc with heq | ⟨ft, hft, heq⟩
      · exact Or.inl heq
      · exact Or.inr ⟨ft, List.mem_cons_of_mem _ hft, heq⟩

theorem refFold_fst (forms : List (Str × Str)) :
    (refFold forms).1 = specsOf (refFold forms).2 := by
  rcases refFold_cases forms ([], []) with heq | ⟨ft, hft, heq⟩
  · show (forms.foldl refStep ([], [])).1 = specsOf (forms.foldl refStep ([], [])).2
    rw [heq]
    rfl
  · show (forms.foldl refStep ([], [])).1 = specsOf (forms.foldl refStep ([], [])).2
    rw [heq]

theorem refFold_mono : ∀ (l : List (Str × Str)) (acc : List SpecMatch × Str),
    acc.1.length ≤ (l.foldl refStep acc).1.length := by
  intro l
  induction l with
  | nil => intro acc; exact Nat.le_refl _
  | cons h t ih =>
    intro acc
    rw [List.foldl_cons]
    refine Nat.le_trans ?_ (ih (refStep acc h))
    by_cases hlt : acc.1.length < (specsOf h.2).length
    · simp [refStep, hlt]
      omega
    · simp [refStep, hlt]

theorem refFold_max : ∀ (l : List (Str × Str)) (acc : List SpecMatch × Str),
    ∀ ft ∈ l, (specsOf ft.2).length ≤ (l.foldl refStep acc).1.length := by
  intro l
  induction l with
  | nil => intro acc ft hft; simp at hft
  | cons h t ih =>
    intro acc ft hft
    rw [List.foldl_cons]
    rcases List.mem_cons.mp hft with rfl | hmem
    · refine Nat.le_trans ?_ (refFold_mono t (refStep acc ft))
      by_cases hlt : acc.1.length < (specsOf ft.2).length
      · simp [refStep, hlt]
      · simp [refStep, hlt]
        omega
    · exact ih (refStep acc h) ft hmem

theorem refFold_member (forms : List (Str × Str)) (hne : (refFold forms).1 ≠ []) :
    ∃ ft ∈ forms, ft.2 = (refFold forms).2 := by
  rcases refFold_cases forms ([], []) with heq | ⟨ft, hft, heq⟩
  · exact absurd (by show (forms.foldl refStep ([], [])).1 = []; rw [heq]) hne
  · exact ⟨ft, hft, by show ft.2 = (forms.foldl refStep ([], [])).2; rw [heq]⟩

/-! ## `buildVariables`: pointwise characterization -/

theorem buildVariablesGo_length (ln : Option Nat) :
    ∀ (ms : List SpecMatch) (idx counter : Nat),
      (buildVariablesGo ln idx counter ms).length = ms.length := by
  intro ms
  induction ms with
  | nil => intro idx counter; rfl
  | cons m rest ih =>
    intro idx counter
    unfold buildVariablesGo
    by_cases h : ln = some idx
    · rw [if_pos h]
      simp [ih]
    · rw [if_neg h]
      simp [ih]

theorem buildVariablesGo_get_none : ∀ (ms : List SpecMatch) (idx counter j : Nat)
    (hj : j < ms.length),
    (buildVariablesGo none idx counter ms).get? j =
      some ("var".toList ++ natToStr (counter + j), ⟨(ms.get ⟨j, hj⟩).full, Role.other⟩) := by
  intro ms
  induction ms with
  | nil => intro idx counter j hj; simp at hj
  | cons m rest ih =>
    intro idx counter j hj
    have hstep : buildVariablesGo none idx counter (m :: rest) =
        ("var".toList ++ natToStr counter, ⟨m.full, Role.other⟩) ::
          buildVariablesGo none (idx + 1) (counter + 1) rest := by
      simp [buildVariablesGo]
    rw [hstep]
    match j with
    | 0 => simp
    | j' + 1 =>
      have hj' : j' < rest.length := by simpa using hj
      rw [List.get?_cons_succ, ih (idx + 1) (counter + 1) j' hj']
      have harith : counter + 1 + j' = counter + (j' + 1) := by omega
      rw [harith]
      rfl

theorem buildVariablesGo_get_some (k : Nat) : ∀ (ms : List SpecMatch) (idx counter j : Nat)
    (hj : j < ms.length),
    (buildVariablesGo (some k) idx counter ms).get? j =
      some
        ((if idx + j = k then "count".toList
          else "var".toList ++
            natToStr (counter + j - (if idx ≤ k ∧ k < idx + j then 1 else 0))),
         ⟨(ms.get ⟨j, hj⟩).full, if idx + j = k then Role.plural else Role.other⟩) := by
  intro ms
  induction ms with
  | nil => intro idx counter j hj; simp at hj
  | cons m rest ih =>
    intro idx counter j hj
    by_cases hik : k = idx
    · have hstep : buildVariablesGo (some k) idx counter (m :: rest) =
          ("count".toList, ⟨m.full, Role.plural⟩) ::
            buildVariablesGo (some k) (idx + 1) counter rest := by
        simp [buildVariablesGo, hik]
      rw [hstep]
      match j with
      | 0 =>
        rw [List.get?_cons_zero]
        have hcond : idx + 0 = k := by omega
        rw [if_pos hcond, if_pos hcond]
        rfl
      | j' + 1 =>
        have hj' : j' < rest.length := by simpa using hj
        rw [List.get?_cons_succ, ih (idx + 1) counter j' hj']
        have hcond1 : ¬(idx + 1 + j' = k) := by omega
        have hcond2 : ¬(idx + (j' + 1) = k) := by omega
        rw [if_neg hcond1, if_neg hcond1, if_neg hcond2, if_neg hcond2]
        have hb1 : ¬(idx + 1 ≤ k ∧ k < idx + 1 + j') := by omega
        have hb2 : idx ≤ k ∧ k < idx + (j' + 1) := by omega
        rw [if_neg hb1, if_pos hb2]
        have harith : counter + j' - 0 = counter + (j' + 1) - 1 := by omega
        rw [harith]
        rfl
    · have hstep : buildVariablesGo (some k) idx counter (m :: rest) =
          ("var".toList ++ natToStr counter, ⟨m.full, Role.other⟩) ::
            buildVariablesGo (some k) (idx + 1) (counter + 1) rest := by
        simp [buildVariablesGo, hik]
      rw [hstep]
      match j with
      | 0 =>
        rw [List.get?_cons_zero]
        have hcond : ¬(idx + 0 = k) := by omega
        rw [if_neg hcond, if_neg hcond]
        have hb : ¬(idx ≤ k ∧ k < idx + 0) := by omega
        rw [if_neg hb]
        have harith : counter = counter + 0 - 0 := by omega
        rw [← harith]
        rfl
      | j' + 1 =>
        have hj' : j' < rest.length := by simpa using hj
        rw [List.get?_cons_succ, ih (idx + 1) (counter + 1) j' hj']
        by_cases hc : idx + 1 + j' = k
        · have hc2 : idx + (j' + 1) = k := by omega
          rw [if_pos hc, if_pos hc, if_pos hc2, if_pos hc2]
          rfl
        · have hc2 : ¬(idx + (j' + 1) = k) := by omega
          rw [if_neg hc, if_neg hc, if_neg hc2, if_neg hc2]
          by_cases hklt : k < idx
          · have hb1 : ¬(idx + 1 ≤ k ∧ k < idx + 1 + j') := by omega
            have hb2 : ¬(idx ≤ k ∧ k < idx + (j' + 1)) := by omega
            rw [if_neg hb1, if_neg hb2]
            have harith : counter + 1 + j' - 0 = counter + (j' + 1) - 0 := by omega
            rw [harith]
            rfl
          · have hkgt : idx < k := by omega
            by_cases hin : k < idx + 1 + j'
            · have hb1 : idx + 1 ≤ k ∧ k < idx + 1 + j' := by omega
              have hb2 : idx ≤ k ∧ k < idx + (j' + 1) := by omega
              rw [if_pos hb1, if_pos hb2]
              have harith : counter + 1 + j' - 1 = counter + (j' + 1) - 1 := by omega
              rw [harith]
              rfl
            · have hb1 : ¬(idx + 1 ≤ k ∧ k < idx + 1 + j') := by omega
              have hb2 : ¬(idx ≤ k ∧ k < idx + (j' + 1)) := by omega
              rw [if_neg hb1, if_neg hb2]
              have harith : counter + 1 + j' - 0 = counter + (j' + 1) - 0 := by omega
              rw [harith]
              rfl

theorem buildVariablesGo_find_none : ∀ (ms : List SpecMatch) (idx counter : Nat),
    (buildVariablesGo none idx counter ms).find? (fun nv => nv.2.role = .plural) = none := by
  intro ms
  induction ms with
  | nil => intro idx counter; rfl
  | cons m rest ih =>
    intro idx counter
    have hstep : buildVariablesGo none idx counter (m :: rest) =
        ("var".toList ++ natToStr counter, ⟨m.full, Role.other⟩) ::
          buildVariablesGo none (idx + 1) (counter + 1) rest := by
      simp [buildVariablesGo]
    rw [hstep, List.find?_cons_of_neg _ (by simp), ih]

theorem buildVariablesGo_find_some (k : Nat) : ∀ (ms : List SpecMatch) (idx counter : Nat)
    (msp : SpecMatch), idx ≤ k → ms.get? (k - idx) = some msp →
    (buildVariablesGo (some k) idx counter ms).find? (fun nv => nv.2.role = .plural) =
      some ("count".toList, ⟨msp.full, Role.plural⟩) := by
  intro ms
  induction ms with
  | nil => intro idx counter msp _ hget; simp at hget
  | cons m rest ih =>
    intro idx counter msp hle hget
    by_cases hik : k = idx
    · have hstep : buildVariablesGo (some k) idx counter (m :: rest) =
          ("count".toList, ⟨m.full, Role.plural⟩) ::
            buildVariablesGo (some k) (idx + 1) counter rest := by
        simp [buildVariablesGo, hik]
      have hz : k - idx = 0 := by omega
      rw [hz, List.get?_cons_zero] at hget
      injection hget with hget
      subst hget
      rw [hstep, List.find?_cons_of_pos _ (by simp)]
    · have hstep : buildVariablesGo (some k) idx counter (m :: rest) =
          ("var".toList ++ natToStr counter, ⟨m.full, Role.other⟩) ::
            buildVariablesGo (some k) (idx + 1) (counter + 1) rest := by
        simp [buildVariablesGo, hik]
      have hlt : idx + 1 ≤ k := by omega
      have hsucc : k - idx = (k - (idx + 1)) + 1 := by omega
      rw [hsucc, List.get?_cons_succ] at hget
      rw [hstep, List.find?_cons_of_neg _ (by simp)]
      exact ih (idx + 1) (counter + 1) msp hlt hget

theorem specPieces_eq_specs (ps : List Piece) :
    specPieces ps =
      (ps.filterMap fun p => match p with | .spec m => some m | .lit _ => none).length := by
  induction ps with
  | nil => rfl
  | cons p r ih =>
    cases p with
    | lit c => simpa [specPieces] using ih
    | spec m =>
      simp only [specPieces, ih, List.filterMap_cons, List.length_cons]
      omega

theorem renderSlot_eq_slotSpec (specs : List SpecMatch) (k : Nat)
    (hk : lastNumericIndex specs = some k) (i : Nat) (hi : i < specs.length) :
    renderSlot (buildVariables specs) i = slotSpec k i := by
  have hbv : buildVariables specs = buildVariablesGo (some k) 0 0 specs := by
    rw [buildVariables, hk]
  have hget := buildVariablesGo_get_some k specs 0 0 i hi
  unfold renderSlot
  rw [hbv, hget]
  by_cases hik : i = k
  · have h0 : 0 + i = k := by omega
    rw [if_pos h0, if_pos h0]
    simp [slotSpec, hik]
  · have h0 : ¬(0 + i = k) := by omega
    rw [if_neg h0, if_neg h0]
    show '{' :: ("var".toList ++ natToStr (0 + i - if 0 ≤ k ∧ k < 0 + i then 1 else 0)) ++ ['}'] =
      slotSpec k i
    rw [slotSpec, if_neg hik]
    by_cases hlt : i < k
    · have hb : ¬(0 ≤ k ∧ k < 0 + i) := by omega
      rw [if_neg hb, if_pos hlt]
      have : 0 + i - 0 = i := by omega
      rw [this]
      simp
    · have hb : 0 ≤ k ∧ k < 0 + i := by omega
      rw [if_pos hb, if_neg hlt]
      have : 0 + i - 1 = i - 1 := by omega
      rw [this]
      simp

theorem substBodyGo_eq_spec (specs : List SpecMatch) (k : Nat)
    (hk : lastNumericIndex specs = some k) :
    ∀ (ps : List Piece) (vIdx : Nat), vIdx + specPieces ps ≤ specs.length →
      substBodyGo (buildVariables specs) vIdx ps = substBodySpecGo k vIdx ps := by
  intro ps
  induction ps with
  | nil => intro vIdx _; rfl
  | cons p r ih =>
    intro vIdx hbound
    cases p with
    | lit c =>
      show c :: substBodyGo (buildVariables specs) vIdx r = c :: substBodySpecGo k vIdx r
      rw [ih vIdx (by simpa [specPieces] using hbound)]
    | spec m =>
      show renderSlot (buildVariables specs) vIdx ++ substBodyGo (buildVariables specs) (vIdx + 1) r =
        slotSpec k vIdx ++ substBodySpecGo k (vIdx + 1) r
      have hvi : vIdx < specs.length := by
        simp only [specPieces] at hbound
        omega
      rw [renderSlot_eq_slotSpec specs k hk vIdx hvi,
        ih (vIdx + 1) (by simp only [specPieces] at hbound; omega)]

theorem substBody_eq_spec (specs : List SpecMatch) (k : Nat)
    (hk : lastNumericIndex specs = some k) (v : Str)
    (hcount : (specsOf v).length ≤ specs.length) :
    substBody (buildVariables specs) v = substBodySpec k v := by
  unfold substBody substBodySpec
  apply substBodyGo_eq_spec specs k hk
  rw [specPieces_eq_specs]
  simpa [specsOf] using hcount

/-- The index picked by the `lastNumericIndex` forEach is exactly the largest
index whose conversion character is numeric. -/
theorem lastNumericIndex_spec : ∀ (ms : List SpecMatch) (k : Nat) (hk1 : k < ms.length),
    isNumericConv (ms.get ⟨k, hk1⟩).conv = true →
    (∀ j (hj : j < ms.length), k < j → isNumericConv (ms.get ⟨j, hj⟩).conv = false) →
    lastNumericIndex ms = some k := by
  intro ms
  induction ms using List.reverseRecOn with
  | nil => intro k hk1 _ _; simp at hk1
  | append_singleton ms' m ih =>
    intro k hk1 hk2 hk3
    unfold lastNumericIndex
    rw [List.enum_append, List.filter_append]
    by_cases hkend : k = ms'.length
    · have hm : m = (ms' ++ [m]).get ⟨k, hk1⟩ := by
        subst hkend
        rw [List.get_append_right] <;> simp
      have hPm : isNumericConv m.conv = true := by rw [hm]; exact hk2
      have hfilter : ([m].enumFrom ms'.length).filter (fun p => isNumericConv p.2.conv) =
          [(ms'.length, m)] := by
        simp [List.enumFrom, hPm]
      rw [hfilter, List.getLast?_concat]
      simp [hkend]
    · have hklt : k < ms'.length := by
        have := hk1
        simp only [List.length_append, List.length_singleton] at this
        omega
      have hPm : isNumericConv m.conv = false := by
        have hj : ms'.length < (ms' ++ [m]).length := by simp
        have := hk3 ms'.length hj (by omega)
        have hm : (ms' ++ [m]).get ⟨ms'.length, hj⟩ = m := by
          rw [List.get_append_right] <;> simp
        rwa [hm] at this
      have hfilter : ([m].enumFrom ms'.length).filter (fun p => isNumericConv p.2.conv) =
          [] := by
        simp [List.enumFrom, hPm]
      rw [hfilter, List.append_nil]
      have hres := ih k hklt
        (by
          have := hk2
          rwa [show (ms' ++ [m]).get ⟨k, hk1⟩ = ms'.get ⟨k, hklt⟩ from List.get_append k hklt]
            at this)
        (by
          intro j hj hkj
          have hj2 : j < (ms' ++ [m]).length := by simp; omega
          have := hk3 j hj2 hkj
          rwa [show (ms' ++ [m]).get ⟨j, hj2⟩ = ms'.get ⟨j, hj⟩ from List.get_append j hj]
            at this)
      unfold lastNumericIndex at hres
      exact hres

/-- **C3.** When the reference form (the first form with the most
format-specifier occurrences — a member of the map attaining the maximum
count) has its last numeric-conversion specifier at index `k`, the emitted
metadata names exactly that specifier `count` with role `plural` and every
other specifier `var0, var1, …` in first-appearance order with role `other`
(entry `i` keeping the `i`-th specifier's text as its format); and each
emitted ICU form body substitutes its specifier occurrences positionally,
`#` in the plural slot and `{varI}` in every other slot. -/
theorem xcstrings_variable_naming
    (forms : List (Str × Str)) (required : List Str) (res : PluralWithMetadata)
    (hok : xcstringsToPluralWithMeta forms required = .ok res)
    (k : Nat) (hk1 : k < (specsOf (refFold forms).2).length)
    (hk2 : isNumericConv ((specsOf (refFold forms).2).get ⟨k, hk1⟩).conv = true)
    (hk3 : ∀ j (hj : j < (specsOf (refFold forms).2).length), k < j →
        isNumericConv ((specsOf (refFold forms).2).get ⟨j, hj⟩).conv = false) :
    ∃ vars : List (Str × VarMeta),
      res.meta = some vars ∧
      vars.length = (specsOf (refFold forms).2).length ∧
      (∀ i (hi : i < (specsOf (refFold forms).2).length),
        vars.get? i =
          some
            ((if i = k then "count".toList
              else "var".toList ++ natToStr (if i < k then i else i - 1)),
             ⟨((specsOf (refFold forms).2).get ⟨i, hi⟩).full,
               if i = k then Role.plural else Role.other⟩)) ∧
      (∃ ft ∈ forms, ft.2 = (refFold forms).2 ∧
        ∀ ft2 ∈ forms, (specsOf ft2.2).length ≤ (specsOf (refFold forms).2).length) ∧
      res.icu = '{' :: ("count".toList ++ ", plural, ".toList ++
        List.intercalate [' ']
          (forms.map fun ft =>
            formKeyFor required ft.1 ++ ' ' :: '{' :: (substBodySpec k ft.2 ++ ['}'])) ++
        ['}']) := by
  have hlast : lastNumericIndex (refFold forms).1 = some k := by
    rw [refFold_fst]
    exact lastNumericIndex_spec _ k hk1 hk2 hk3
  have hspeclen : 0 < (specsOf (refFold forms).2).length := Nat.lt_of_le_of_lt (Nat.zero_le k) hk1
  have hvars_len : (buildVariables (refFold forms).1).length =
      (specsOf (refFold forms).2).length := by
    rw [buildVariables, hlast, buildVariablesGo_length, refFold_fst]
  have hvars_ne : ¬(buildVariables (refFold forms).1).isEmpty = true := by
    rw [List.isEmpty_iff_length_eq_zero, hvars_len]
    omega
  have hemp : forms.isEmpty = false := by
    cases hemp : forms.isEmpty
    · rfl
    · exfalso
      unfold xcstringsToPluralWithMeta at hok
      rw [hemp] at hok
      simp at hok
  have hres : res = ⟨'{' ::
      ((match (buildVariables (refFold forms).1).find? fun nv => nv.2.role = .plural with
        | some nv => nv.1
        | none => "count".toList) ++ ", plural, ".toList ++
        icuFormsOf required (buildVariables (refFold forms).1) forms ++ ['}']),
      if (buildVariables (refFold forms).1).isEmpty then none
      else some (buildVariables (refFold forms).1)⟩ := by
    unfold xcstringsToPluralWithMeta at hok
    rw [hemp] at hok
    simp only [Bool.false_eq_true, if_false] at hok
    injection hok with hok
    exact hok.symm
  have hfind : (buildVariables (refFold forms).1).find? (fun nv => nv.2.role = .plural) =
      some ("count".toList, ⟨((specsOf (refFold forms).2).get ⟨k, hk1⟩).full, Role.plural⟩) := by
    rw [buildVariables, hlast, refFold_fst]
    exact buildVariablesGo_find_some k _ 0 0 _ (Nat.zero_le k)
      (by rw [Nat.sub_zero]; exact List.get?_eq_get hk1)
  refine ⟨buildVariables (refFold forms).1, ?_, hvars_len, ?_, ?_, ?_⟩
  · rw [hres]
    show (if (buildVariables (refFold forms).1).isEmpty then none
      else some (buildVariables (refFold forms).1)) = some _
    rw [if_neg hvars_ne]
  · intro i hi
    rw [buildVariables, hlast, refFold_fst]
    rw [buildVariablesGo_get_some k _ 0 0 i hi]
    by_cases hik : i = k
    · have h0 : 0 + i = k := by omega
      rw [if_pos h0, if_pos h0, if_pos hik, if_pos hik]
    · have h0 : ¬(0 + i = k) := by omega
      rw [if_neg h0, if_neg h0, if_neg hik, if_neg hik]
      by_cases hlt : i < k
      · have hb : ¬(0 ≤ k ∧ k < 0 + i) := by omega
        rw [if_neg hb, if_pos hlt]
        have : 0 + i - 0 = i := by omega
        rw [this]
      · have hb : 0 ≤ k ∧ k < 0 + i := by omega
        rw [if_pos hb, if_neg hlt]
        have : 0 + i - 1 = i - 1 := by omega
        rw [this]
  · have hne1 : (refFold forms).1 ≠ [] := by
      rw [refFold_fst]
      intro h
      rw [h] at hspeclen
      simp at hspeclen
    obtain ⟨ft, hft, hft2⟩ := refFold_member forms hne1
    refine ⟨ft, hft, hft2, ?_⟩
    intro ft2 hft2m
    have := refFold_max forms ([], []) ft2 hft2m
    rw [show (forms.foldl refStep ([], [])).1 = (refFold forms).1 from rfl, refFold_fst] at this
    exact this
  · rw [hres]
    show '{' :: (_ ++ ", plural, ".toList ++
      icuFormsOf required (buildVariables (refFold forms).1) forms ++ ['}']) = _
    rw [hfind]
    have hbody : icuFormsOf required (buildVariables (refFold forms).1) forms =
        List.intercalate [' ']
          (forms.map fun ft =>
            formKeyFor required ft.1 ++ ' ' :: '{' :: (substBodySpec k ft.2 ++ ['}'])) := by
      unfold icuFormsOf
      congr 1
      apply List.map_congr_left
      intro ft hft
      have hcount : (specsOf ft.2).length ≤ (specsOf (refFold forms).2).length := by
        have := refFold_max forms ([], []) ft hft
        rw [show (forms.foldl refStep ([], [])).1 = (refFold forms).1 from rfl, refFold_fst]
          at this
        exact this
      have hsub : substBody (buildVariables (refFold forms).1) ft.2 = substBodySpec k ft.2 := by
        rw [refFold_fst]
        exact substBody_eq_spec _ k (by rw [← refFold_fst]; exact hlast) ft.2 hcount
      rw [hsub]
    rw [hbody]

theorem xcstrings_variable_naming_witness :
    ∃ vars : List (Str × VarMeta),
      (PluralWithMetadata.mk
          "{count, plural, one {{var0} uploaded 1 photo} other {{var0} uploaded # photos}}".toList
          (some [("var0".toList, ⟨"%@".toList, .other⟩),
                 ("count".toList, ⟨"%d".toList, .plural⟩)])).meta = some vars ∧
      vars.length =
        (specsOf (refFold [("one".toList, "%@ uploaded 1 photo".toList),
          ("other".toList, "%@ uploaded %d photos".toList)]).2).length ∧
      (∀ i (hi : i < (specsOf (refFold [("one".toList, "%@ uploaded 1 photo".toList),
          ("other".toList, "%@ uploaded %d photos".toList)]).2).length),
        vars.get? i =
          some
            ((if i = 1 then "count".toList
              else "var".toList ++ natToStr (if i < 1 then i else i - 1)),
             ⟨((specsOf (refFold [("one".toList, "%@ uploaded 1 photo".toList),
                 ("other".toList, "%@ uploaded %d photos".toList)]).2).get ⟨i, hi⟩).full,
               if i = 1 then Role.plural else Role.other⟩)) ∧
      (∃ ft ∈ [("one".toList, "%@ uploaded 1 photo".toList),
          ("other".toList, "%@ uploaded %d photos".toList)],
        ft.2 = (refFold [("one".toList, "%@ uploaded 1 photo".toList),
          ("other".toList, "%@ uploaded %d photos".toList)]).2 ∧
        ∀ ft2 ∈ [("one".toList, "%@ uploaded 1 photo".toList),
            ("other".toList, "%@ uploaded %d photos".toList)],
          (specsOf ft2.2).length ≤
            (specsOf (refFold [("one".toList, "%@ uploaded 1 photo".toList),
              ("other".toList, "%@ uploaded %d photos".toList)]).2).length) ∧
      (PluralWithMetadata.mk
          "{count, plural, one {{var0} uploaded 1 photo} other {{var0} uploaded # photos}}".toList
          (some [("var0".toList, ⟨"%@".toList, .other⟩),
                 ("count".toList, ⟨"%d".toList, .plural⟩)])).icu =
        '{' :: ("count".toList ++ ", plural, ".toList ++
          List.intercalate [' ']
            ([("one".toList, "%@ uploaded 1 photo".toList),
              ("other".toList, "%@ uploaded %d photos".toList)].map fun ft =>
              formKeyFor ["one".toList, "other".toList] ft.1 ++
                ' ' :: '{' :: (substBodySpec 1 ft.2 ++ ['}'])) ++
          ['}']) :=
  xcstrings_variable_naming
    [("one".toList, "%@ uploaded 1 photo".toList),
     ("other".toList, "%@ uploaded %d photos".toList)]
    ["one".toList, "other".toList]
    (PluralWithMetadata.mk
      "{count, plural, one {{var0} uploaded 1 photo} other {{var0} uploaded # photos}}".toList
      (some [("var0".toList, ⟨"%@".toList, .other⟩),
             ("count".toList, ⟨"%d".toList, .plural⟩)]))
    (by decide) 1 (by decide) (by decide) (by decide)

theorem scanSpecsF_flatten : ∀ (fuel : Nat) (s : Str), s.length ≤ fuel →
    ((scanSpecsF fuel s).map pieceText).flatten = s := by
  intro fuel
  induction fuel with
  | zero =>
    intro s hs
    have : s = [] := List.eq_nil_of_length_eq_zero (Nat.le_zero.mp hs)
    subst this
    rfl
  | succ f ih =>
    intro s hs
    match s with
    | [] => rfl
    | c :: r0 =>
      show ((scanSpecsF (f + 1) (c :: r0)).map pieceText).flatten = c :: r0
      rw [scanSpecsF]
      cases hp : tryParseSpec (c :: r0) with
      | none =>
        simp only [List.map_cons, List.flatten_cons, pieceText]
        rw [ih r0 (by simpa using hs)]
        rfl
      | some p =>
        obtain ⟨m, rest⟩ := p
        obtain ⟨happ, _⟩ := tryParseSpec_some hp
        have hlt : rest.length < (c :: r0).length := tryParseSpec_rest_lt hp
        simp only [List.map_cons, List.flatten_cons, pieceText]
        rw [ih rest (by simp at hs hlt; omega)]
        exact happ.symm

theorem scanSpecs_flatten (s : Str) : ((scanSpecs s).map pieceText).flatten = s :=
  scanSpecsF_flatten s.length s (Nat.le_refl _)

theorem scanSpecsF_lit_mem : ∀ (fuel : Nat) (s : Str) (c : Char),
    Piece.lit c ∈ scanSpecsF fuel s → c ∈ s := by
  intro fuel
  induction fuel with
  | zero => intro s c h; exact absurd h (by simp [scanSpecsF])
  | succ f ih =>
    intro s c h
    match s with
    | [] => exact absurd h (by simp [scanSpecsF])
    | d :: r0 =>
      rw [scanSpecsF] at h
      cases hp : tryParseSpec (d :: r0) with
      | none =>
        rw [hp] at h
        rcases List.mem_cons.mp h with heq | hmem
        · injection heq with heq
          subst heq
          exact List.mem_cons_self _ _
        · exact List.mem_cons_of_mem _ (ih r0 c hmem)
      | some p =>
        obtain ⟨m, rest⟩ := p
        rw [hp] at h
        rcases List.mem_cons.mp h with heq | hmem
        · exact absurd heq (by simp)
        · obtain ⟨happ, _⟩ := tryParseSpec_some hp
          rw [happ]
          exact List.mem_append_right _ (ih rest c hmem)

theorem scanSpecsF_spec_head : ∀ (fuel : Nat) (s : Str) (m : SpecMatch),
    Piece.spec m ∈ scanSpecsF fuel s → ∃ t, m.full = '%' :: t := by
  intro fuel
  induction fuel with
  | zero => intro s m h; exact absurd h (by simp [scanSpecsF])
  | succ f ih =>
    intro s m h
    match s with
    | [] => exact absurd h (by simp [scanSpecsF])
    | d :: r0 =>
      rw [scanSpecsF] at h
      cases hp : tryParseSpec (d :: r0) with
      | none =>
        rw [hp] at h
        rcases List.mem_cons.mp h with heq | hmem
        · exact absurd heq (by simp)
        · exact ih r0 m hmem
      | some p =>
        obtain ⟨m0, rest⟩ := p
        rw [hp] at h
        rcases List.mem_cons.mp h with heq | hmem
        · injection heq with heq
          subst heq
          exact (tryParseSpec_some hp).2
        · exact ih rest m hmem

theorem chunkList_append : ∀ {a b : Str}, ChunkList a → ChunkList b → ChunkList (a ++ b) := by
  intro a b ha hb
  induction ha with
  | nil => exact hb
  | chr c hc s _ ih => exact ChunkList.chr c hc _ ih
  | grp w hw s _ ih =>
    have : ('{' :: w ++ '}' :: s) ++ b = '{' :: w ++ '}' :: (s ++ b) := by simp
    rw [this]
    exact ChunkList.grp w hw _ ih

theorem chunkList_braceFree : ∀ {s : Str}, braceFree s = true → ChunkList s := by
  intro s
  induction s with
  | nil => intro _; exact ChunkList.nil
  | cons c r ih =>
    intro h
    simp only [braceFree, List.all_cons, Bool.and_eq_true, decide_eq_true_eq] at h
    exact ChunkList.chr c ⟨h.1.1, h.1.2⟩ r (ih h.2)

theorem scanBodyF_zero (fuel : Nat) (rest : Str) : scanBodyF fuel 0 rest = ([], 0, rest) := by
  cases fuel <;> cases rest <;> rfl

theorem scanBodyF_step (g k : Nat) (c : Char) (r : Str) :
    scanBodyF (g + 1) (k + 1) (c :: r) =
      if c = '{' then
        ((c :: (scanBodyF g (k + 2) r).1, (scanBodyF g (k + 2) r).2))
      else if c = '}' then
        if k + 1 - 1 = 0 then scanBodyF g 0 r
        else (c :: (scanBodyF g (k + 1 - 1) r).1, (scanBodyF g (k + 1 - 1) r).2)
      else (c :: (scanBodyF g (k + 1) r).1, (scanBodyF g (k + 1) r).2) := by
  rfl

theorem scanBodyF_bf2 : ∀ (w : Str), braceFree w = true → ∀ (fuel : Nat) (z : Str),
    w.length + 1 ≤ fuel →
    scanBodyF fuel 2 (w ++ '}' :: z) =
      (w ++ '}' :: (scanBodyF (fuel - (w.length + 1)) 1 z).1,
        (scanBodyF (fuel - (w.length + 1)) 1 z).2) := by
  intro w
  induction w with
  | nil =>
    intro _ fuel z hf
    match fuel, hf with
    | g + 1, _ =>
      show scanBodyF (g + 1) 2 ('}' :: z) = _
      rw [show (2 : Nat) = 1 + 1 from rfl, scanBodyF_step]
      simp
  | cons c w' ih =>
    intro hbf fuel z hf
    simp only [braceFree, List.all_cons, Bool.and_eq_true, decide_eq_true_eq] at hbf
    match fuel, hf with
    | g + 1, hf =>
      show scanBodyF (g + 1) 2 (c :: (w' ++ '}' :: z)) = _
      rw [show (2 : Nat) = 1 + 1 from rfl, scanBodyF_step]
      rw [if_neg hbf.1.1, if_neg hbf.1.2]
      rw [ih hbf.2 g z (by simp at hf; omega)]
      simp only [List.length_cons]
      rw [show g + 1 - (w'.length + 1 + 1) = g - (w'.length + 1) from by omega]
      rfl

theorem scanBodyF_chunk : ∀ {body : Str}, ChunkList body → ∀ (rest : Str) (fuel : Nat),
    body.length + 1 ≤ fuel → scanBodyF fuel 1 (body ++ '}' :: rest) = (body, 0, rest) := by
  intro body h
  induction h with
  | nil =>
    intro rest fuel hf
    match fuel, hf with
    | g + 1, _ =>
      show scanBodyF (g + 1) 1 ('}' :: rest) = _
      rw [show (1 : Nat) = 0 + 1 from rfl, scanBodyF_step]
      simp [scanBodyF_zero]
  | chr c hc s _ ih =>
    intro rest fuel hf
    match fuel, hf with
    | g + 1, hf =>
      show scanBodyF (g + 1) 1 (c :: (s ++ '}' :: rest)) = _
      rw [show (1 : Nat) = 0 + 1 from rfl, scanBodyF_step]
      rw [if_neg hc.1, if_neg hc.2]
      rw [show (0 + 1 : Nat) = 1 from rfl, ih rest g (by simp at hf; omega)]
  | grp w hw s _ ih =>
    intro rest fuel hf
    match fuel, hf with
    | g + 1, hf =>
      have hshape : ('{' :: w ++ '}' :: s) ++ '}' :: rest = '{' :: (w ++ '}' :: (s ++ '}' :: rest)) := by
        simp
      rw [hshape]
      rw [show (1 : Nat) = 0 + 1 from rfl, scanBodyF_step]
      rw [if_pos rfl]
      have hg : w.length + 1 ≤ g := by
        simp [List.length_append] at hf
        omega
      rw [show (0 + 2 : Nat) = 2 from rfl, scanBodyF_bf2 w hw g (s ++ '}' :: rest) hg]
      rw [ih rest (g - (w.length + 1)) (by simp [List.length_append] at hf ⊢; omega)]
      rfl

theorem scanArgF_braceFree : ∀ (name : Str), braceFree name = true →
    ∀ (fuel : Nat) (r : Str), name.length + 1 ≤ fuel →
      scanArgF fuel 0 (name ++ '}' :: r) = some (name, r) := by
  intro name
  induction name with
  | nil =>
    intro _ fuel r hf
    match fuel, hf with
    | g + 1, _ =>
      show scanArgF (g + 1) 0 ('}' :: r) = some ([], r)
      simp [scanArgF]
  | cons c w ih =>
    intro hbf fuel r hf
    simp only [braceFree, List.all_cons, Bool.and_eq_true, decide_eq_true_eq] at hbf
    match fuel, hf with
    | g + 1, hf =>
      show scanArgF (g + 1) 0 (c :: (w ++ '}' :: r)) = some (c :: w, r)
      rw [scanArgF]
      rw [if_neg (by simpa using hbf.1.1), if_neg (by simpa using hbf.1.2)]
      rw [ih hbf.2 g r (by simp at hf; omega)]
      rfl

theorem renderBodySpec_nil (vars : List (Str × VarMeta)) : renderBodySpec vars [] = [] := rfl

theorem renderBodySpec_cons (vars : List (Str × VarMeta)) (e : Elem) (es : List Elem) :
    renderBodySpec vars (e :: es) =
      (match e with
       | .lit s => s
       | .pound => poundFmt vars
       | .arg n => argFmt vars n) ++ renderBodySpec vars es := by
  cases e <;> rfl

theorem parseFormTextF_step_other (g : Nat) (acc : Str) (c : Char) (r : Str)
    (h1 : c ≠ '#') (h2 : c ≠ '{') :
    parseFormTextF (g + 1) acc (c :: r) = parseFormTextF g (acc ++ [c]) r := by
  rw [parseFormTextF.eq_def]
  split <;> first | rfl | omega | simp_all

theorem parseFormTextF_step_pound (g : Nat) (acc r : Str) :
    parseFormTextF (g + 1) acc ('#' :: r) =
      (parseFormTextF g [] r).map fun es =>
        if acc.isEmpty then .pound :: es else .lit acc :: .pound :: es := rfl

theorem parseFormTextF_step_brace (g : Nat) (acc r : Str) :
    parseFormTextF (g + 1) acc ('{' :: r) =
      match scanArgF r.length 0 r with
      | none => .error "Unclosed variable reference".toList
      | some (inner, rest) =>
        (parseFormTextF g [] rest).map fun es =>
          if acc.isEmpty then .arg inner :: es else .lit acc :: .arg inner :: es := rfl

theorem parseFormTextF_subst (vars : List (Str × VarMeta)) :
    ∀ (ps : List Piece) (vIdx : Nat) (acc : Str) (fuel : Nat),
      (substBodyGo vars vIdx ps).length + 1 ≤ fuel →
      (∀ c, Piece.lit c ∈ ps → c ≠ '{' ∧ c ≠ '}' ∧ c ≠ '#') →
      (∀ ps1 m ps2, ps = ps1 ++ Piece.spec m :: ps2 →
        SlotRender vars (vIdx + specPieces ps1) m) →
      ∃ es, parseFormTextF fuel acc (substBodyGo vars vIdx ps) = .ok es ∧
        renderBodySpec vars es = acc ++ (ps.map pieceText).flatten := by
  intro ps
  induction ps with
  | nil =>
    intro vIdx acc fuel hf _ _
    match fuel, hf with
    | g + 1, _ =>
      refine ⟨if acc.isEmpty then [] else [Elem.lit acc], rfl, ?_⟩
      cases acc with
      | nil => rfl
      | cons a t => simp [renderBodySpec]
  | cons p ps' ih =>
    intro vIdx acc fuel hf hlits hspec
    cases p with
    | lit c =>
      have hc := hlits c (List.mem_cons_self _ _)
      have hbody : substBodyGo vars vIdx (Piece.lit c :: ps') =
          c :: substBodyGo vars vIdx ps' := rfl
      rw [hbody] at hf ⊢
      match fuel, hf with
      | g + 1, hf =>
        rw [parseFormTextF_step_other g acc c _ hc.2.2 hc.1]
        obtain ⟨es, hok, hrender⟩ := ih vIdx (acc ++ [c]) g
          (by simp only [List.length_cons] at hf; omega)
          (fun d hd => hlits d (List.mem_cons_of_mem _ hd))
          (fun ps1 m ps2 hps => by
            have h2 := hspec (Piece.lit c :: ps1) m ps2 (by rw [hps]; rfl)
            simpa [specPieces] using h2)
        refine ⟨es, hok, ?_⟩
        rw [hrender]
        simp [pieceText]
    | spec m =>
      have hsr := hspec [] m ps' rfl
      have hz : vIdx + specPieces [] = vIdx := rfl
      rw [hz] at hsr
      have hbody : substBodyGo vars vIdx (Piece.spec m :: ps') =
          renderSlot vars vIdx ++ substBodyGo vars (vIdx + 1) ps' := rfl
      have hspec' : ∀ ps1 m' ps2, ps' = ps1 ++ Piece.spec m' :: ps2 →
          SlotRender vars (vIdx + 1 + specPieces ps1) m' := by
        intro ps1 m' ps2 hps
        have h2 := hspec (Piece.spec m :: ps1) m' ps2 (by rw [hps]; rfl)
        have h3 : vIdx + specPieces (Piece.spec m :: ps1) = vIdx + 1 + specPieces ps1 := by
          simp only [specPieces]
          omega
        rwa [h3] at h2
      have hlits' : ∀ c, Piece.lit c ∈ ps' → c ≠ '{' ∧ c ≠ '}' ∧ c ≠ '#' :=
        fun d hd => hlits d (List.mem_cons_of_mem _ hd)
      rcases hsr with ⟨hslot, hfmt⟩ | ⟨name, hslot, hbf, hfmt⟩
      · rw [hbody, hslot] at hf ⊢
        simp only [List.singleton_append] at hf ⊢
        match fuel, hf with
        | g + 1, hf =>
          rw [parseFormTextF_step_pound]
          obtain ⟨es, hok, hrender⟩ := ih (vIdx + 1) [] g
            (by simp only [List.length_cons] at hf; omega) hlits' hspec'
          rw [hok]
          refine ⟨if acc.isEmpty then .pound :: es else .lit acc :: .pound :: es, rfl, ?_⟩
          cases acc with
          | nil => simp [renderBodySpec_cons, hrender, hfmt, pieceText]
          | cons a t => simp [renderBodySpec_cons, hrender, hfmt, pieceText]
      · rw [hbody, hslot] at hf ⊢
        have hshape : ('{' :: (name ++ ['}'])) ++ substBodyGo vars (vIdx + 1) ps' =
            '{' :: (name ++ '}' :: substBodyGo vars (vIdx + 1) ps') := by
          simp
        rw [hshape] at hf ⊢
        match fuel, hf with
        | g + 1, hf =>
          obtain ⟨es, hok, hrender⟩ := ih (vIdx + 1) [] g
            (by simp only [List.length_cons, List.length_append] at hf; omega) hlits' hspec'
          refine ⟨if acc.isEmpty then .arg name :: es else .lit acc :: .arg name :: es, ?_, ?_⟩
          · rw [parseFormTextF_step_brace]
            rw [scanArgF_braceFree name hbf
              (name ++ '}' :: substBodyGo vars (vIdx + 1) ps').length
              (substBodyGo vars (vIdx + 1) ps') (by simp [List.length_append])]
            show (parseFormTextF g [] (substBodyGo vars (vIdx + 1) ps')).map
                (fun es0 => if acc.isEmpty then Elem.arg name :: es0
                  else Elem.lit acc :: Elem.arg name :: es0) = _
            rw [hok]
            rfl
          · cases acc with
            | nil => simp [renderBodySpec_cons, hrender, hfmt, pieceText]
            | cons a t => simp [renderBodySpec_cons, hrender, hfmt, pieceText]

theorem digitCh_lt10_digit : ∀ d < 10, isDigitC (digitCh d) = true := by decide

theorem natToStr_digits (n : Nat) : ∀ c ∈ natToStr n, isDigitC c = true := by
  intro c hc
  unfold natToStr at hc
  split at hc
  · simp at hc
    subst hc
    decide
  · simp only [List.mem_map, List.mem_reverse] at hc
    obtain ⟨d, hd, hdc⟩ := hc
    subst hdc
    exact digitCh_lt10_digit d (natDigitsRev_lt n n d hd)

theorem braceFree_varName (k : Nat) : braceFree ("var".toList ++ natToStr k) = true := by
  simp only [braceFree, List.all_append, Bool.and_eq_true]
  constructor
  · decide
  · rw [List.all_eq_true]
    intro c hc
    have hd := natToStr_digits k c hc
    simp only [Bool.and_eq_true, decide_eq_true_eq]
    constructor
    · intro h
      subst h
      exact absurd hd (by decide)
    · intro h
      subst h
      exact absurd hd (by decide)

theorem find_name_of_nodup {β : Type} : ∀ (l : List (Str × β)) (j : Nat) (nm : Str) (b : β),
    (l.map Prod.fst).Nodup → l.get? j = some (nm, b) →
    l.find? (fun nv => nv.1 = nm) = some (nm, b) := by
  intro l
  induction l with
  | nil => intro j nm b _ hj; simp at hj
  | cons a t ih =>
    intro j nm b hnd hj
    match j with
    | 0 =>
      rw [List.get?_cons_zero] at hj
      injection hj with hj
      subst hj
      rw [List.find?_cons_of_pos _ (by simp)]
    | j' + 1 =>
      rw [List.get?_cons_succ] at hj
      have hmem : nm ∈ t.map Prod.fst := by
        have := List.get?_mem hj
        exact List.mem_map.mpr ⟨(nm, b), this, rfl⟩
      have hne : a.1 ≠ nm := by
        intro h
        rw [List.map_cons, List.nodup_cons] at hnd
        exact hnd.1 (h ▸ hmem)
      rw [List.find?_cons_of_neg _ (by simpa using hne)]
      exact ih j' nm b (by rw [List.map_cons, List.nodup_cons] at hnd; exact hnd.2) hj

theorem buildVariablesGo_names (ln : Option Nat) : ∀ (ms : List SpecMatch) (idx counter : Nat)
    (nm : Str), nm ∈ (buildVariablesGo ln idx counter ms).map Prod.fst →
    (nm = "count".toList ∧ ∃ j, ln = some j ∧ idx ≤ j) ∨
      ∃ k, counter ≤ k ∧ nm = "var".toList ++ natToStr k := by
  intro ms
  induction ms with
  | nil => intro idx counter nm h; exact absurd h (by simp [buildVariablesGo])
  | cons m rest ih =>
    intro idx counter nm h
    by_cases hik : ln = some idx
    · subst hik
      have hstep : buildVariablesGo (some idx) idx counter (m :: rest) =
          ("count".toList, ⟨m.full, Role.plural⟩) ::
            buildVariablesGo (some idx) (idx + 1) counter rest := by
        simp [buildVariablesGo]
      rw [hstep, List.map_cons] at h
      rcases List.mem_cons.mp h with heq | hmem
      · exact Or.inl ⟨heq, idx, rfl, Nat.le_refl idx⟩
      · rcases ih (idx + 1) counter nm hmem with ⟨h1, j, hj, hle⟩ | hvar
        · exact Or.inl ⟨h1, j, hj, by omega⟩
        · exact Or.inr hvar
    · have hstep : buildVariablesGo ln idx counter (m :: rest) =
          ("var".toList ++ natToStr counter, ⟨m.full, Role.other⟩) ::
            buildVariablesGo ln (idx + 1) (counter + 1) rest := by
        cases ln with
        | none => simp [buildVariablesGo]
        | some k =>
          have hk : ¬ k = idx := fun h => hik (by rw [h])
          simp [buildVariablesGo, hk]
      rw [hstep, List.map_cons] at h
      rcases List.mem_cons.mp h with heq | hmem
      · exact Or.inr ⟨counter, Nat.le_refl _, heq⟩
      · rcases ih (idx + 1) (counter + 1) nm hmem with ⟨h1, j, hj, hle⟩ | ⟨k, hk, hnm⟩
        · exact Or.inl ⟨h1, j, hj, by omega⟩
        · exact Or.inr ⟨k, by omega, hnm⟩

theorem buildVariablesGo_names_nodup (ln : Option Nat) :
    ∀ (ms : List SpecMatch) (idx counter : Nat),
      ((buildVariablesGo ln idx counter ms).map Prod.fst).Nodup := by
  intro ms
  induction ms with
  | nil => intro idx counter; simp [buildVariablesGo]
  | cons m rest ih =>
    intro idx counter
    by_cases hik : ln = some idx
    · subst hik
      have hstep : buildVariablesGo (some idx) idx counter (m :: rest) =
          ("count".toList, ⟨m.full, Role.plural⟩) ::
            buildVariablesGo (some idx) (idx + 1) counter rest := by
        simp [buildVariablesGo]
      rw [hstep, List.map_cons, List.nodup_cons]
      refine ⟨?_, ih (idx + 1) counter⟩
      intro hmem
      rcases buildVariablesGo_names (some idx) rest (idx + 1) counter _ hmem with
        ⟨_, j, hj, hle⟩ | ⟨k, _, hnm⟩
      · injection hj with hj
        omega
      · exact varName_ne_count k hnm.symm
    · have hstep : buildVariablesGo ln idx counter (m :: rest) =
          ("var".toList ++ natToStr counter, ⟨m.full, Role.other⟩) ::
            buildVariablesGo ln (idx + 1) (counter + 1) rest := by
        cases ln with
        | none => simp [buildVariablesGo]
        | some k =>
          have hk : ¬ k = idx := fun h => hik (by rw [h])
          simp [buildVariablesGo, hk]
      rw [hstep, List.map_cons, List.nodup_cons]
      refine ⟨?_, ih (idx + 1) (counter + 1)⟩
      intro hmem
      rcases buildVariablesGo_names ln rest (idx + 1) (counter + 1) _ hmem with
        ⟨hcnt, _⟩ | ⟨k, hk, hnm⟩
      · exact varName_ne_count counter hcnt
      · exact absurd (varName_inj hnm) (by omega)

theorem lastNumericIndex_get {ms : List SpecMatch} {k : Nat}
    (h : lastNumericIndex ms = some k) : ∃ msp, ms.get? k = some msp := by
  unfold lastNumericIndex at h
  rcases Option.map_eq_some'.mp h with ⟨p, hp, hk⟩
  have hmem : p ∈ ms.enum := List.mem_of_mem_filter (List.mem_of_mem_getLast? hp)
  have hget := List.mem_enum_iff_get?.mp hmem
  subst hk
  exact ⟨p.2, hget⟩

theorem specsOf_head {s : Str} {m : SpecMatch} (h : m ∈ specsOf s) :
    ∃ t, m.full = '%' :: t := by
  unfold specsOf at h
  rcases List.mem_filterMap.mp h with ⟨p, hp, hm⟩
  cases p with
  | lit c => exact absurd hm (by simp)
  | spec m0 =>
    have : m0 = m := by
      simpa using hm
    subst this
    exact scanSpecsF_spec_head s.length s m0 hp

theorem slotRender_aligned (refSpecs : List SpecMatch)
    (hhd : ∀ m ∈ refSpecs, ∃ t, m.full = '%' :: t)
    (specs : List SpecMatch) (htake : specs = refSpecs.take specs.length)
    (j : Nat) (m : SpecMatch) (hj : specs.get? j = some m) :
    SlotRender (buildVariables refSpecs) j m := by
  have hjlt : j < specs.length := List.get?_eq_some.mp hj |>.1
  have href : refSpecs.get? j = some m := by
    rw [htake] at hj
    rwa [List.get?_take hjlt] at hj
  have hjref : j < refSpecs.length := List.get?_eq_some.mp href |>.1
  have hmem : m ∈ refSpecs := List.get?_mem href
  obtain ⟨t, hfull⟩ := hhd m hmem
  have hfne : m.full.isEmpty = false := by rw [hfull]; rfl
  have hmget : refSpecs.get ⟨j, hjref⟩ = m := by
    have := List.get?_eq_get hjref
    rw [href] at this
    injection this with this
    exact this.symm
  cases hln : lastNumericIndex refSpecs with
  | none =>
    have hbv : buildVariables refSpecs = buildVariablesGo none 0 0 refSpecs := by
      rw [buildVariables, hln]
    have hget := buildVariablesGo_get_none refSpecs 0 0 j hjref
    rw [hmget] at hget
    right
    refine ⟨"var".toList ++ natToStr (0 + j), ?_, braceFree_varName _, ?_⟩
    · unfold renderSlot
      rw [hbv, hget]
      rfl
    · unfold argFmt
      rw [hbv, find_name_of_nodup _ j _ _ (buildVariablesGo_names_nodup none refSpecs 0 0) hget]
      simp [hfne]
  | some k =>
    have hbv : buildVariables refSpecs = buildVariablesGo (some k) 0 0 refSpecs := by
      rw [buildVariables, hln]
    have hget := buildVariablesGo_get_some k refSpecs 0 0 j hjref
    rw [hmget] at hget
    obtain ⟨msp, hkget⟩ := lastNumericIndex_get hln
    have hkmem : msp ∈ refSpecs := List.get?_mem hkget
    obtain ⟨tk, hkfull⟩ := hhd msp hkmem
    have hkfne : msp.full.isEmpty = false := by rw [hkfull]; rfl
    by_cases hjk : j = k
    · subst hjk
      have hmsp : msp = m := by
        rw [href] at hkget
        injection hkget with h2
        exact h2.symm
      subst hmsp
      have hc : 0 + j = j := by omega
      left
      constructor
      · unfold renderSlot
        rw [hbv, hget, if_pos (show 0 + j = j by omega), if_pos (show 0 + j = j by omega)]
      · unfold poundFmt
        rw [hbv,
          buildVariablesGo_find_some j refSpecs 0 0 msp (by omega) (by simpa using hkget)]
        simp [hkfne]
    · have hc : ¬(0 + j = k) := by omega
      rw [if_neg hc, if_neg hc] at hget
      right
      refine ⟨"var".toList ++ natToStr (0 + j - if 0 ≤ k ∧ k < 0 + j then 1 else 0),
        ?_, braceFree_varName _, ?_⟩
      · unfold renderSlot
        rw [hbv, hget]
        rfl
      · unfold argFmt
        rw [hbv, find_name_of_nodup _ j _ _
          (buildVariablesGo_names_nodup (some k) refSpecs 0 0) hget]
        simp [hfne]

theorem specsOf_get_of_decomp {v : Str} {ps1 ps2 : List Piece} {m : SpecMatch}
    (h : scanSpecs v = ps1 ++ Piece.spec m :: ps2) :
    (specsOf v).get? (specPieces ps1) = some m := by
  unfold specsOf
  rw [h, List.filterMap_append, List.filterMap_cons]
  simp only []
  rw [specPieces_eq_specs, List.get?_append_right (Nat.le_refl _)]
  simp

theorem chunkList_substBodyGo (vars : List (Str × VarMeta)) : ∀ (ps : List Piece) (vIdx : Nat),
    (∀ c, Piece.lit c ∈ ps → c ≠ '{' ∧ c ≠ '}') →
    (∀ ps1 m ps2, ps = ps1 ++ Piece.spec m :: ps2 →
      SlotRender vars (vIdx + specPieces ps1) m) →
    ChunkList (substBodyGo vars vIdx ps) := by
  intro ps
  induction ps with
  | nil => intro vIdx _ _; exact ChunkList.nil
  | cons p ps' ih =>
    intro vIdx hlits hspec
    cases p with
    | lit c =>
      exact ChunkList.chr c (hlits c (List.mem_cons_self _ _))
        _ (ih vIdx (fun d hd => hlits d (List.mem_cons_of_mem _ hd))
          (fun ps1 m ps2 hps => by
            have h2 := hspec (Piece.lit c :: ps1) m ps2 (by rw [hps]; rfl)
            simpa [specPieces] using h2))
    | spec m =>
      have hsr := hspec [] m ps' rfl
      have hz : vIdx + specPieces [] = vIdx := rfl
      rw [hz] at hsr
      have htail : ChunkList (substBodyGo vars (vIdx + 1) ps') :=
        ih (vIdx + 1) (fun d hd => hlits d (List.mem_cons_of_mem _ hd))
          (fun ps1 m' ps2 hps => by
            have h2 := hspec (Piece.spec m :: ps1) m' ps2 (by rw [hps]; rfl)
            have h3 : vIdx + specPieces (Piece.spec m :: ps1) = vIdx + 1 + specPieces ps1 := by
              simp only [specPieces]
              omega
            rwa [h3] at h2)
      have hbody : substBodyGo vars vIdx (Piece.spec m :: ps') =
          renderSlot vars vIdx ++ substBodyGo vars (vIdx + 1) ps' := rfl
      rw [hbody]
      rcases hsr with ⟨hslot, _⟩ | ⟨name, hslot, hbf, _⟩
      · rw [hslot]
        exact ChunkList.chr '#' (by decide) _ htail
      · rw [hslot]
        have hshape : ('{' :: (name ++ ['}'])) ++ substBodyGo vars (vIdx + 1) ps' =
            '{' :: name ++ '}' :: substBodyGo vars (vIdx + 1) ps' := by simp
        rw [hshape]
        exact ChunkList.grp name hbf _ htail

theorem takeWhile_append_stop {q : Char → Bool} : ∀ (a : Str) (h : Char) (t : Str),
    (∀ c ∈ a, q c = true) → q h = false →
    (a ++ h :: t).takeWhile q = a ∧ (a ++ h :: t).dropWhile q = h :: t := by
  intro a
  induction a with
  | nil =>
    intro h t _ hh
    exact ⟨List.takeWhile_cons_of_neg (by simp [hh]), List.dropWhile_cons_of_neg (by simp [hh])⟩
  | cons x a' ih =>
    intro h t ha hh
    have hx : q x = true := ha x (List.mem_cons_self _ _)
    obtain ⟨h1, h2⟩ := ih h t (fun c hc => ha c (List.mem_cons_of_mem _ hc)) hh
    constructor
    · rw [List.cons_append, List.takeWhile_cons_of_pos (by simp [hx]), h1]
    · rw [List.cons_append, List.dropWhile_cons_of_pos (by simp [hx]), h2]

theorem intercalate_nil_str : List.intercalate [' '] ([] : List Str) = [] := rfl

theorem intercalate_singleton (a : Str) : List.intercalate [' '] [a] = a := by
  simp [List.intercalate, List.intersperse]

theorem intercalate_cons_cons (a b : Str) (l : List Str) :
    List.intercalate [' '] (a :: b :: l) = a ++ ' ' :: List.intercalate [' '] (b :: l) := by
  simp [List.intercalate, List.intersperse]

theorem isLineTerm_false_of_word {c : Char} (h : isWordChar c = true) : isLineTerm c = false := by
  cases hl : isLineTerm c with
  | false => rfl
  | true =>
    exfalso
    simp only [isLineTerm, Bool.or_eq_true, decide_eq_true_eq] at hl
    have hl2 : c = '\n' ∨ c = '\x0d' ∨ c = '\u2028' ∨ c = '\u2029' := by tauto
    rcases hl2 with rfl | rfl | rfl | rfl <;> exact absurd h (by decide)

theorem isLineTerm_false_of_digit {c : Char} (h : isDigitC c = true) : isLineTerm c = false := by
  cases hl : isLineTerm c with
  | false => rfl
  | true =>
    exfalso
    simp only [isLineTerm, Bool.or_eq_true, decide_eq_true_eq] at hl
    have hl2 : c = '\n' ∨ c = '\x0d' ∨ c = '\u2028' ∨ c = '\u2029' := by tauto
    rcases hl2 with rfl | rfl | rfl | rfl <;> exact absurd h (by decide)

theorem buildVariables_name_chars (refSpecs : List SpecMatch) :
    ∀ nm ∈ (buildVariables refSpecs).map Prod.fst, ∀ c ∈ nm, isLineTerm c = false := by
  intro nm hnm c hc
  unfold buildVariables at hnm
  rcases buildVariablesGo_names (lastNumericIndex refSpecs) refSpecs 0 0 nm hnm with
    ⟨rfl, _⟩ | ⟨k, _, rfl⟩
  · have hc2 : c ∈ ['c', 'o', 'u', 'n', 't'] := hc
    fin_cases hc2 <;> decide
  · rcases List.mem_append.mp hc with hv | hd
    · have hv2 : c ∈ ['v', 'a', 'r'] := hv
      fin_cases hv2 <;> decide
    · exact isLineTerm_false_of_digit (natToStr_digits k c hd)

theorem renderSlot_chars (vars : List (Str × VarMeta)) (j : Nat) (c : Char)
    (hc : c ∈ renderSlot vars j) :
    c = '#' ∨ c = '{' ∨ c = '}' ∨ ∃ nm ∈ vars.map Prod.fst, c ∈ nm := by
  unfold renderSlot at hc
  cases hg : vars.get? j with
  | none =>
    rw [hg] at hc
    simp at hc
    exact Or.inl hc
  | some nv =>
    rw [hg] at hc
    have hc2 : c ∈ (match nv.2.role with
        | Role.plural => (['#'] : Str)
        | Role.other => '{' :: nv.1 ++ ['}']) := hc
    cases hr : nv.2.role with
    | plural =>
      rw [hr] at hc2
      simp at hc2
      exact Or.inl hc2
    | other =>
      rw [hr] at hc2
      rcases List.mem_cons.mp hc2 with rfl | hmem
      · exact Or.inr (Or.inl rfl)
      · rcases List.mem_append.mp hmem with hnm | hbr
        · exact Or.inr (Or.inr (Or.inr
            ⟨nv.1, List.mem_map.mpr ⟨nv, List.get?_mem hg, rfl⟩, hnm⟩))
        · simp at hbr
          exact Or.inr (Or.inr (Or.inl hbr))

theorem substBodyGo_chars (vars : List (Str × VarMeta)) : ∀ (ps : List Piece) (vIdx : Nat)
    (c : Char), c ∈ substBodyGo vars vIdx ps →
    (∃ d, Piece.lit d ∈ ps ∧ c = d) ∨ ∃ j, c ∈ renderSlot vars j := by
  intro ps
  induction ps with
  | nil => intro vIdx c hc; exact absurd hc (by simp [substBodyGo])
  | cons p ps' ih =>
    intro vIdx c hc
    cases p with
    | lit d =>
      rcases List.mem_cons.mp hc with rfl | hmem
      · exact Or.inl ⟨c, List.mem_cons_self _ _, rfl⟩
      · rcases ih vIdx c hmem with ⟨d2, hd2, hcd⟩ | hj
        · exact Or.inl ⟨d2, List.mem_cons_of_mem _ hd2, hcd⟩
        · exact Or.inr hj
    | spec m =>
      rcases List.mem_append.mp hc with hsl | hmem
      · exact Or.inr ⟨vIdx, hsl⟩
      · rcases ih (vIdx + 1) c hmem with ⟨d2, hd2, hcd⟩ | hj
        · exact Or.inl ⟨d2, List.mem_cons_of_mem _ hd2, hcd⟩
        · exact Or.inr hj

theorem isSpaceJS_false_of_word {c : Char} (h : isWordChar c = true) : isSpaceJS c = false := by
  cases hl : isSpaceJS c with
  | false => rfl
  | true =>
    exfalso
    simp only [isSpaceJS, Bool.or_eq_true, decide_eq_true_eq] at hl
    have hl2 : c = ' ' ∨ c = '\t' ∨ c = '\n' ∨ c = '\x0d' ∨ c = '\x0b' ∨ c = '\x0c' := by
      tauto
    rcases hl2 with rfl | rfl | rfl | rfl | rfl | rfl <;> exact absurd h (by decide)

theorem readFormName_cons_ne (k0 : Char) (hne : k0 ≠ '=') (r : Str) :
    readFormName (k0 :: r) =
      ((k0 :: r).takeWhile isWordChar, (k0 :: r).dropWhile isWordChar) := by
  rw [readFormName.eq_def]
  split <;> simp_all

theorem readFormName_eq (r : Str) :
    readFormName ('=' :: r) = ('=' :: (takeDigits r).1, (takeDigits r).2) := rfl

theorem rekeyBack_formKeyFor (required : List Str) (c : Str) (hc : c ∈ cldrPluralCategories) :
    rekeyBack (formKeyFor required c) = c := by
  have hcases : c = "zero".toList ∨ c = "one".toList ∨ c = "two".toList ∨
      c = "few".toList ∨ c = "many".toList ∨ c = "other".toList := by
    simpa [cldrPluralCategories] using hc
  rcases hcases with rfl | rfl | rfl | rfl | rfl | rfl <;>
    (unfold formKeyFor; split)
  all_goals decide

theorem formKeyFor_keyOk (required : List Str) (c : Str) (hc : c ∈ cldrPluralCategories) :
    KeyOkP (formKeyFor required c) := by
  have hcases : c = "zero".toList ∨ c = "one".toList ∨ c = "two".toList ∨
      c = "few".toList ∨ c = "many".toList ∨ c = "other".toList := by
    simpa [cldrPluralCategories] using hc
  rcases hcases with rfl | rfl | rfl | rfl | rfl | rfl <;>
    (unfold formKeyFor; split)
  · exact Or.inl (by refine ⟨by decide, by decide, by decide⟩)
  · exact Or.inr ⟨['0'], by decide, by decide⟩
  · exact Or.inl (by refine ⟨by decide, by decide, by decide⟩)
  · exact Or.inr ⟨['1'], by decide, by decide⟩
  · exact Or.inl (by refine ⟨by decide, by decide, by decide⟩)
  · exact Or.inr ⟨['2'], by decide, by decide⟩
  · exact Or.inl (by refine ⟨by decide, by decide, by decide⟩)
  · exact Or.inl (by refine ⟨by decide, by decide, by decide⟩)
  · exact Or.inl (by refine ⟨by decide, by decide, by decide⟩)
  · exact Or.inl (by refine ⟨by decide, by decide, by decide⟩)
  · exact Or.inl (by refine ⟨by decide, by decide, by decide⟩)
  · exact Or.inl (by refine ⟨by decide, by decide, by decide⟩)

theorem formKeyFor_chars (required : List Str) (c : Str) (hc : c ∈ cldrPluralCategories) :
    ∀ ch ∈ formKeyFor required c, isLineTerm ch = false := by
  have hcases : c = "zero".toList ∨ c = "one".toList ∨ c = "two".toList ∨
      c = "few".toList ∨ c = "many".toList ∨ c = "other".toList := by
    simpa [cldrPluralCategories] using hc
  rcases hcases with rfl | rfl | rfl | rfl | rfl | rfl <;>
    (unfold formKeyFor; split)
  all_goals
    intro ch hch
    revert ch
    decide

theorem parseOneForm_entry (varName formsText key body rest : Str)
    (hkey : KeyOkP key) (hchunk : ChunkList body) :
    parseOneForm varName formsText (key ++ (' ' :: ('{' :: (body ++ ('}' :: rest))))) =
      .ok (some ((key, body), rest)) := by
  have hscan : scanBodyF (body ++ ('}' :: rest)).length 1 (body ++ ('}' :: rest)) =
      (body, 0, rest) :=
    scanBodyF_chunk hchunk rest _ (by simp [List.length_append])
  have hbrace : List.dropWhile isSpaceJS (' ' :: ('{' :: (body ++ ('}' :: rest)))) =
      '{' :: (body ++ ('}' :: rest)) := by
    rw [List.dropWhile_cons_of_pos (by decide)]
    exact List.dropWhile_cons_of_neg (by decide)
  rcases hkey with ⟨hne, hall, hhead⟩ | ⟨ds, rfl, hds⟩
  · match key, hne with
    | k0 :: kr, _ =>
      have hw : isWordChar k0 = true := by
        have := List.all_eq_true.mp hall k0 (List.mem_cons_self _ _)
        simpa using this
      have hsp : isSpaceJS k0 = false := isSpaceJS_false_of_word hw
      have hne0 : k0 ≠ '=' := by
        intro h
        subst h
        exact hhead rfl
      have hstop := takeWhile_append_stop (k0 :: kr) ' ' ('{' :: (body ++ ('}' :: rest)))
        (fun c hc => List.all_eq_true.mp hall c hc) (by decide)
      have hread : readFormName (k0 :: (kr ++ (' ' :: ('{' :: (body ++ ('}' :: rest)))))) =
          (k0 :: kr, ' ' :: ('{' :: (body ++ ('}' :: rest)))) := by
        rw [readFormName_cons_ne k0 hne0]
        rw [Prod.mk.injEq]
        exact ⟨hstop.1, hstop.2⟩
      show parseOneForm varName formsText
        (k0 :: (kr ++ (' ' :: ('{' :: (body ++ ('}' :: rest)))))) = _
      unfold parseOneForm
      rw [List.dropWhile_cons_of_neg (by simp [hsp])]
      rw [if_neg (by simp)]
      rw [hread]
      simp only [List.isEmpty_cons, Bool.false_eq_true, if_false, hbrace, hscan, if_true]
  · have hstop := takeWhile_append_stop ds ' ' ('{' :: (body ++ ('}' :: rest)))
      (fun c hc => List.all_eq_true.mp hds c hc) (by decide)
    have hread : readFormName ('=' :: (ds ++ (' ' :: ('{' :: (body ++ ('}' :: rest)))))) =
        ('=' :: ds, ' ' :: ('{' :: (body ++ ('}' :: rest)))) := by
      rw [readFormName_eq]
      unfold takeDigits
      rw [Prod.mk.injEq]
      constructor
      · rw [hstop.1]
      · exact hstop.2
    show parseOneForm varName formsText
      ('=' :: (ds ++ (' ' :: ('{' :: (body ++ ('}' :: rest)))))) = _
    unfold parseOneForm
    rw [List.dropWhile_cons_of_neg (by decide)]
    rw [if_neg (by simp)]
    rw [hread]
    simp only [List.isEmpty_cons, Bool.false_eq_true, if_false, hbrace, hscan, if_true]

theorem icuFormsOf_eq_entriesStr (required : List Str) (vars : List (Str × VarMeta))
    (forms : List (Str × Str)) :
    icuFormsOf required vars forms = entriesStr required vars forms := rfl

theorem parseOneForm_cons_space (varName formsText s : Str) :
    parseOneForm varName formsText (' ' :: s) = parseOneForm varName formsText s := by
  unfold parseOneForm
  rw [List.dropWhile_cons_of_pos (by decide)]

theorem parseFormsF_entries (varName formsText : Str) (required : List Str)
    (vars : List (Str × VarMeta)) :
    ∀ (fs : List (Str × Str)),
      (∀ ft ∈ fs, KeyOkP (formKeyFor required ft.1)) →
      (∀ ft ∈ fs, ChunkList (substBody vars ft.2)) →
      (∀ ft ∈ fs, ∃ es, parseFormText (substBody vars ft.2) = Except.ok es) →
      ∀ (fuel : Nat), fs.length + 1 ≤ fuel → ∀ (acc : List (Str × List Elem)) (pre : Str),
        (pre = [] ∨ pre = [' ']) →
        parseFormsF fuel varName formsText (pre ++ entriesStr required vars fs) acc =
          .ok (fs.foldl (fun a f => upsert a (formKeyFor required f.1)
            (elemsOf vars f.2)) acc) := by
  intro fs
  induction fs with
  | nil =>
    intro _ _ _ fuel hfuel acc pre hpre
    match fuel, hfuel with
    | g + 1, _ => rcases hpre with rfl | rfl <;> rfl
  | cons ft fs' ih =>
    intro hkeys hchunks hparses fuel hfuel acc pre hpre
    match fuel, hfuel with
    | g + 1, hfuel =>
      obtain ⟨es, hes⟩ := hparses ft (List.mem_cons_self _ _)
      have helems : elemsOf vars ft.2 = es := by
        unfold elemsOf
        rw [hes]
      have hkey := hkeys ft (List.mem_cons_self _ _)
      have hchunk := hchunks ft (List.mem_cons_self _ _)
      have hone : ∀ tail : Str,
          parseOneForm varName formsText (entryOf required vars ft ++ tail) =
            .ok (some ((formKeyFor required ft.1, substBody vars ft.2), tail)) := by
        intro tail
        have hshape : entryOf required vars ft ++ tail =
            formKeyFor required ft.1 ++
              (' ' :: ('{' :: (substBody vars ft.2 ++ ('}' :: tail)))) := by
          unfold entryOf
          simp [List.append_assoc]
        rw [hshape]
        exact parseOneForm_entry varName formsText _ _ tail hkey hchunk
      have hfs : fs'.length + 1 ≤ g := by simp at hfuel; omega
      have hstep : ∀ (s tail : Str),
          parseOneForm varName formsText s =
            .ok (some ((formKeyFor required ft.1, substBody vars ft.2), tail)) →
          parseFormsF g varName formsText tail
              (upsert acc (formKeyFor required ft.1) (elemsOf vars ft.2)) =
            .ok (fs'.foldl (fun a f => upsert a (formKeyFor required f.1)
              (elemsOf vars f.2))
              (upsert acc (formKeyFor required ft.1) (elemsOf vars ft.2))) →
          parseFormsF (g + 1) varName formsText s acc =
            .ok ((ft :: fs').foldl (fun a f => upsert a (formKeyFor required f.1)
              (elemsOf vars f.2)) acc) := by
        intro s tail hpof hrec
        rw [parseFormsF, hpof]
        show (do
          let elems ← parseFormText (substBody vars ft.2)
          parseFormsF g varName formsText tail
            (upsert acc (formKeyFor required ft.1) elems)) = _
        rw [hes]
        show parseFormsF g varName formsText tail
            (upsert acc (formKeyFor required ft.1) es) = _
        rw [← helems, hrec, List.foldl_cons]
      cases fs' with
      | nil =>
        have hentries : entriesStr required vars [ft] = entryOf required vars ft := by
          unfold entriesStr
          rw [List.map_cons, List.map_nil]
          exact intercalate_singleton _
        have hrec := ih (fun f hf => hkeys f (List.mem_cons_of_mem _ hf))
          (fun f hf => hchunks f (List.mem_cons_of_mem _ hf))
          (fun f hf => hparses f (List.mem_cons_of_mem _ hf))
          g hfs (upsert acc (formKeyFor required ft.1) (elemsOf vars ft.2)) [] (Or.inl rfl)
        rcases hpre with rfl | rfl
        · rw [List.nil_append, hentries]
          exact hstep _ [] (by simpa using hone []) (by simpa [entriesStr] using hrec)
        · rw [show ([' '] : Str) ++ entriesStr required vars [ft] =
            ' ' :: entriesStr required vars [ft] from rfl, hentries]
          exact hstep _ []
            (by rw [parseOneForm_cons_space]; simpa using hone [])
            (by simpa [entriesStr] using hrec)
      | cons ft2 fs'' =>
        have hentries : entriesStr required vars (ft :: ft2 :: fs'') =
            entryOf required vars ft ++ ' ' :: entriesStr required vars (ft2 :: fs'') := by
          unfold entriesStr
          rw [List.map_cons]
          exact intercalate_cons_cons _ _ _
        have hrec := ih (fun f hf => hkeys f (List.mem_cons_of_mem _ hf))
          (fun f hf => hchunks f (List.mem_cons_of_mem _ hf))
          (fun f hf => hparses f (List.mem_cons_of_mem _ hf))
          g hfs (upsert acc (formKeyFor required ft.1) (elemsOf vars ft.2)) [' '] (Or.inr rfl)
        rcases hpre with rfl | rfl
        · rw [List.nil_append, hentries]
          exact hstep _ (' ' :: entriesStr required vars (ft2 :: fs''))
            (hone _) (by simpa using hrec)
        · rw [show ([' '] : Str) ++ entriesStr required vars (ft :: ft2 :: fs'') =
            ' ' :: entriesStr required vars (ft :: ft2 :: fs'') from rfl, hentries]
          exact hstep _ (' ' :: entriesStr required vars (ft2 :: fs''))
            (by rw [parseOneForm_cons_space]; exact hone _)
            (by simpa using hrec)

theorem upsert_fresh {β : Type} : ∀ (a : List (Str × β)) (k : Str) (v : β),
    k ∉ a.map Prod.fst → upsert a k v = a ++ [(k, v)] := by
  intro a
  induction a with
  | nil => intro k v _; rfl
  | cons e t ih =>
    intro k v hk
    obtain ⟨k1, v1⟩ := e
    rw [List.map_cons] at hk
    have hne : ¬(k1 = k) := by
      intro h
      exact hk (by rw [← h]; exact List.mem_cons_self _ _)
    show (if k1 = k then (k, v) :: t else (k1, v1) :: upsert t k v) = ((k1, v1) :: t) ++ [(k, v)]
    rw [if_neg hne, ih k v (fun hm => hk (List.mem_cons_of_mem _ hm))]
    rfl

theorem foldl_upsert_append {β γ : Type} (K : γ → Str) (V : γ → β) :
    ∀ (fs : List γ) (acc : List (Str × β)),
      (fs.map K).Nodup → (∀ f ∈ fs, K f ∉ acc.map Prod.fst) →
      fs.foldl (fun a f => upsert a (K f) (V f)) acc =
        acc ++ fs.map (fun f => (K f, V f)) := by
  intro fs
  induction fs with
  | nil => intro acc _ _; simp
  | cons f t ih =>
    intro acc hnd hfresh
    rw [List.foldl_cons]
    rw [List.map_cons, List.nodup_cons] at hnd
    have hfr1 : K f ∉ acc.map Prod.fst := hfresh f (List.mem_cons_self _ _)
    have hfresh2 : ∀ g ∈ t, K g ∉ (acc ++ [(K f, V f)]).map Prod.fst := by
      intro g hg hmem
      rw [List.map_append] at hmem
      rcases List.mem_append.mp hmem with h1 | h2
      · exact hfresh g (List.mem_cons_of_mem _ hg) h1
      · simp at h2
        exact hnd.1 (h2 ▸ List.mem_map_of_mem K hg)
    calc (t.foldl (fun a g => upsert a (K g) (V g)) (upsert acc (K f) (V f)))
        = t.foldl (fun a g => upsert a (K g) (V g)) (acc ++ [(K f, V f)]) := by
          rw [upsert_fresh acc (K f) (V f) hfr1]
      _ = (acc ++ [(K f, V f)]) ++ t.map (fun g => (K g, V g)) := ih _ hnd.2 hfresh2
      _ = acc ++ (f :: t).map (fun g => (K g, V g)) := by simp

theorem entryOf_ne_nil (required : List Str) (vars : List (Str × VarMeta)) (ft : Str × Str) :
    entryOf required vars ft ≠ [] := by
  unfold entryOf
  intro h
  simp at h

theorem intercalate_length_ge : ∀ (es : List Str), (∀ e ∈ es, e ≠ []) →
    es.length ≤ (List.intercalate [' '] es).length := by
  intro es
  induction es with
  | nil => intro _; simp [intercalate_nil_str]
  | cons a t ih =>
    intro hne
    cases t with
    | nil =>
      rw [intercalate_singleton]
      simpa using List.length_pos.mpr (hne a (List.mem_cons_self _ _))
    | cons b t' =>
      rw [intercalate_cons_cons]
      have h1 := ih (fun e he => hne e (List.mem_cons_of_mem _ he))
      have ha := List.length_pos.mpr (hne a (List.mem_cons_self _ _))
      simp only [List.length_append, List.length_cons] at h1 ⊢
      omega

theorem pluralVarName_count (ms : List SpecMatch) :
    (match (buildVariables ms).find? (fun nv => nv.2.role = .plural) with
     | some nv => nv.1
     | none => "count".toList) = "count".toList := by
  cases hln : lastNumericIndex ms with
  | none =>
    rw [show buildVariables ms = buildVariablesGo none 0 0 ms from by rw [buildVariables, hln]]
    rw [buildVariablesGo_find_none]
  | some k =>
    obtain ⟨msp, hkget⟩ := lastNumericIndex_get hln
    rw [show buildVariables ms = buildVariablesGo (some k) 0 0 ms from by
      rw [buildVariables, hln]]
    rw [buildVariablesGo_find_some k ms 0 0 msp (Nat.zero_le k) (by simpa using hkget)]

theorem viableTail_concat (X : Str) (hne : X ≠ [])
    (hlt : ∀ c ∈ X, isLineTerm c = false) : viableTail (X ++ ['}']) = true := by
  unfold viableTail
  rw [List.getLast?_concat]
  show (!(X ++ ['}']).dropLast.isEmpty && (X ++ ['}']).dropLast.all fun c => !isLineTerm c) = true
  rw [List.dropLast_concat]
  rw [Bool.and_eq_true]
  constructor
  · cases X with
    | nil => exact absurd rfl hne
    | cons x xs => rfl
  · rw [List.all_eq_true]
    intro c hc
    rw [hlt c hc]
    rfl

theorem wsGreedy_space (X : Str) (hne : X ≠ [])
    (hlt : ∀ c ∈ X, isLineTerm c = false)
    (hhead : ∀ c, X.head? = some c → isSpaceJS c = false) :
    wsGreedy (' ' :: (X ++ ['}'])) = some X := by
  match X, hne with
  | x0 :: X', _ =>
    have hx0 : isSpaceJS x0 = false := hhead x0 rfl
    have htw : (' ' :: ((x0 :: X') ++ ['}'])).takeWhile isSpaceJS = [' '] := by
      rw [List.takeWhile_cons_of_pos (by decide)]
      rw [show ((x0 :: X') ++ ['}'] : Str) = x0 :: (X' ++ ['}']) from rfl]
      rw [List.takeWhile_cons_of_neg (by simp [hx0])]
    unfold wsGreedy
    rw [htw]
    show wsTryF (0 + 1) (' ' :: ((x0 :: X') ++ ['}'])) = some (x0 :: X')
    rw [wsTryF]
    have hdrop : (' ' :: ((x0 :: X') ++ ['}'])).drop (0 + 1) = (x0 :: X') ++ ['}'] := rfl
    rw [hdrop, if_pos (viableTail_concat (x0 :: X') (by simp) hlt), List.dropLast_concat]

theorem attemptOuter_forms (X : Str) (hne : X ≠ [])
    (hlt : ∀ c ∈ X, isLineTerm c = false)
    (hhead : ∀ c, X.head? = some c → isSpaceJS c = false) :
    attemptOuter ('{' :: ("count".toList ++ ", plural, ".toList ++ X ++ ['}'])) =
      some ("count".toList, X) := by
  have hshape : "count".toList ++ ", plural, ".toList ++ X ++ ['}'] =
      "count".toList ++ (',' :: (' ' :: ("plural".toList ++
        (',' :: (' ' :: (X ++ ['}'])))))) := by
    simp [List.append_assoc]
  have hallc : ∀ c ∈ "count".toList, isWordChar c = true := by decide
  have hcomma : isWordChar ',' = false := by decide
  have hstop := takeWhile_append_stop "count".toList ','
    (' ' :: ("plural".toList ++ (',' :: (' ' :: (X ++ ['}']))))) hallc hcomma
  have hwe : ("count".toList).isEmpty = false := rfl
  have hdrop3 : List.dropWhile isSpaceJS
      (' ' :: ("plural".toList ++ (',' :: (' ' :: (X ++ ['}']))))) =
      "plural".toList ++ (',' :: (' ' :: (X ++ ['}']))) := by
    rw [List.dropWhile_cons_of_pos (by decide)]
    rw [show ("plural".toList ++ (',' :: (' ' :: (X ++ ['}']))) : Str) =
      'p' :: ("lural".toList ++ (',' :: (' ' :: (X ++ ['}'])))) from rfl]
    rw [List.dropWhile_cons_of_neg (by decide)]
  have hpre : "plural".toList.isPrefixOf
      ("plural".toList ++ (',' :: (' ' :: (X ++ ['}'])))) = true := by
    rw [List.isPrefixOf_iff_prefix]
    exact List.prefix_append _ _
  have hdrop6 : ("plural".toList ++ (',' :: (' ' :: (X ++ ['}'])))).drop 6 =
      ',' :: (' ' :: (X ++ ['}'])) := rfl
  have hws := wsGreedy_space X hne hlt hhead
  unfold attemptOuter
  rw [hshape]
  simp only [hstop.1, hstop.2, hwe, Bool.false_eq_true, if_false, hdrop3, hpre, if_true,
    hdrop6, hws, Option.map_some']

theorem parseICU_forms (X : Str) (hne : X ≠ [])
    (hlt : ∀ c ∈ X, isLineTerm c = false)
    (hhead : ∀ c, X.head? = some c → isSpaceJS c = false)
    (opts : List (Str × List Elem))
    (hopts : parseFormsF (X.length + 1) "count".toList X X [] = .ok opts) :
    parseICU ('{' :: ("count".toList ++ ", plural, ".toList ++ X ++ ['}'])) =
      .ok ⟨"count".toList, opts⟩ := by
  have hatt := attemptOuter_forms X hne hlt hhead
  have hfind : findOuter ('{' :: ("count".toList ++ ", plural, ".toList ++ X ++ ['}'])) =
      some ("count".toList, X) := by
    rw [findOuter, hatt]
  unfold parseICU
  rw [hfind]
  show (do
    let opts ← parseFormsF (X.length + 1) "count".toList X X []
    Except.ok (⟨"count".toList, opts⟩ : ICUAst)) = _
  rw [hopts]
  rfl

theorem intercalate_mem : ∀ (L : List Str) (c : Char), c ∈ List.intercalate [' '] L →
    c = ' ' ∨ ∃ e ∈ L, c ∈ e := by
  intro L
  induction L with
  | nil => intro c hc; exact absurd hc (by simp [intercalate_nil_str])
  | cons a t ih =>
    intro c hc
    cases t with
    | nil =>
      rw [intercalate_singleton] at hc
      exact Or.inr ⟨a, List.mem_cons_self _ _, hc⟩
    | cons b t' =>
      rw [intercalate_cons_cons] at hc
      rcases List.mem_append.mp hc with h1 | h2
      · exact Or.inr ⟨a, List.mem_cons_self _ _, h1⟩
      · rcases List.mem_cons.mp h2 with rfl | h3
        · exact Or.inl rfl
        · rcases ih c h3 with h4 | ⟨e, he, hce⟩
          · exact Or.inl h4
          · exact Or.inr ⟨e, List.mem_cons_of_mem _ he, hce⟩

theorem substBody_chars (refSpecs : List SpecMatch) (v : Str)
    (hv : ∀ c ∈ v, isLineTerm c = false) :
    ∀ c ∈ substBody (buildVariables refSpecs) v, isLineTerm c = false := by
  intro c hc
  rcases substBodyGo_chars (buildVariables refSpecs) (scanSpecs v) 0 c hc with
    ⟨d, hd, rfl⟩ | ⟨j, hj⟩
  · exact hv _ (scanSpecsF_lit_mem v.length v _ hd)
  · rcases renderSlot_chars (buildVariables refSpecs) j c hj with rfl | rfl | rfl | ⟨nm, hnm, hcnm⟩
    · decide
    · decide
    · decide
    · exact buildVariables_name_chars refSpecs nm hnm c hcnm

theorem entryOf_chars (required : List Str) (refSpecs : List SpecMatch) (ft : Str × Str)
    (hkey : ft.1 ∈ cldrPluralCategories)
    (hval : ∀ c ∈ ft.2, isLineTerm c = false) :
    ∀ c ∈ entryOf required (buildVariables refSpecs) ft, isLineTerm c = false := by
  intro c hc
  unfold entryOf at hc
  rcases List.mem_append.mp hc with h1 | h2
  · exact formKeyFor_chars required ft.1 hkey c h1
  · rcases List.mem_cons.mp h2 with rfl | h3
    · decide
    · rcases List.mem_cons.mp h3 with rfl | h4
      · decide
      · rcases List.mem_append.mp h4 with h5 | h6
        · exact substBody_chars refSpecs ft.2 hval c h5
        · simp at h6
          subst h6
          decide

theorem entriesStr_chars (required : List Str) (refSpecs : List SpecMatch)
    (forms : List (Str × Str))
    (hkeys : ∀ ft ∈ forms, ft.1 ∈ cldrPluralCategories)
    (hvals : ∀ ft ∈ forms, ∀ c ∈ ft.2, isLineTerm c = false) :
    ∀ c ∈ entriesStr required (buildVariables refSpecs) forms, isLineTerm c = false := by
  intro c hc
  rcases intercalate_mem _ c hc with rfl | ⟨e, he, hce⟩
  · decide
  · rcases List.mem_map.mp he with ⟨ft, hft, rfl⟩
    exact entryOf_chars required refSpecs ft (hkeys ft hft) (hvals ft hft) c hce

theorem keyOk_ne {k : Str} (h : KeyOkP k) : k ≠ [] := by
  rcases h with ⟨hne, _, _⟩ | ⟨ds, rfl, _⟩
  · exact hne
  · simp

theorem keyOk_head {k : Str} (h : KeyOkP k) : ∀ c, k.head? = some c → isSpaceJS c = false := by
  rcases h with ⟨hne, hall, _⟩ | ⟨ds, rfl, _⟩
  · match k, hne with
    | k0 :: kr, _ =>
      intro c hc
      injection hc with hc
      rw [← hc]
      exact isSpaceJS_false_of_word (by
        have := List.all_eq_true.mp hall k0 (List.mem_cons_self _ _)
        simpa using this)
  · intro c hc
    injection hc with hc
    rw [← hc]
    decide

theorem entriesStr_head (required : List Str) (vars : List (Str × VarMeta))
    (ft : Str × Str) (fs' : List (Str × Str)) (hkey : KeyOkP (formKeyFor required ft.1)) :
    entriesStr required vars (ft :: fs') ≠ [] ∧
    ∀ c, (entriesStr required vars (ft :: fs')).head? = some c → isSpaceJS c = false := by
  have hkne := keyOk_ne hkey
  have hdecomp : ∃ tail, entriesStr required vars (ft :: fs') =
      entryOf required vars ft ++ tail := by
    cases fs' with
    | nil =>
      refine ⟨[], ?_⟩
      unfold entriesStr
      rw [List.map_cons, List.map_nil, intercalate_singleton, List.append_nil]
    | cons ft2 fs'' =>
      refine ⟨' ' :: entriesStr required vars (ft2 :: fs''), ?_⟩
      unfold entriesStr
      rw [List.map_cons]
      exact intercalate_cons_cons _ _ _
  obtain ⟨tail, htail⟩ := hdecomp
  rw [htail]
  match hk : formKeyFor required ft.1, hkne with
  | k0 :: kr, _ =>
    have hshape : entryOf required vars ft ++ tail =
        k0 :: ((kr ++ ' ' :: '{' :: (substBody vars ft.2 ++ ['}'])) ++ tail) := by
      unfold entryOf
      rw [hk]
      rfl
    rw [hshape]
    constructor
    · simp
    · intro c hc
      injection hc with hc
      have hkh := keyOk_head hkey k0
      rw [hk] at hkh
      rw [← hc]
      exact hkh rfl

theorem metaVariables_mk (icu : Str) (vars : List (Str × VarMeta)) :
    metaVariables ⟨icu, if vars.isEmpty then none else some vars⟩ = vars := by
  cases vars with
  | nil => rfl
  | cons a t => rfl

theorem renderFold_eq (vars : List (Str × VarMeta)) : ∀ (es : List Elem) (t : Str),
    es.foldl
      (fun t e =>
        match e with
        | Elem.lit s => t ++ s
        | Elem.pound =>
          t ++
            match vars.find? fun nv => nv.2.role = .plural with
            | some nv => if nv.2.format.isEmpty then "%lld".toList else nv.2.format
            | none => "%lld".toList
        | Elem.arg varName =>
          t ++
            match (vars.find? fun nv => nv.1 = varName).map (·.2) with
            | some vm => if vm.format.isEmpty then "%@".toList else vm.format
            | none => "%@".toList)
      t = t ++ renderBodySpec vars es := by
  intro es
  induction es with
  | nil => intro t; simp [renderBodySpec]
  | cons e rest ih =>
    intro t
    rw [List.foldl_cons, ih]
    cases e with
    | lit s => simp [renderBodySpec, List.append_assoc]
    | pound => simp [renderBodySpec, List.append_assoc]
    | arg n => simp [renderBodySpec, List.append_assoc]

theorem pluralInverse_ok (data : PluralWithMetadata) (ast : ICUAst)
    (hparse : parseICU data.icu = .ok ast) (hne : data.icu.isEmpty = false) :
    pluralWithMetaToXcstrings data =
      .ok (ast.options.foldl
        (fun acc fe => upsert acc (rekeyBack fe.1)
          (renderBodySpec (metaVariables data) fe.2)) []) := by
  have hstep : pluralWithMetaToXcstrings data =
      .ok (ast.options.foldl
        (fun acc fe =>
          upsert acc (rekeyBack fe.1)
            (fe.2.foldl
              (fun t e =>
                match e with
                | Elem.lit s => t ++ s
                | Elem.pound =>
                  t ++
                    match (metaVariables data).find? fun nv => nv.2.role = .plural with
                    | some nv => if nv.2.format.isEmpty then "%lld".toList else nv.2.format
                    | none => "%lld".toList
                | Elem.arg varName =>
                  t ++
                    match ((metaVariables data).find? fun nv => nv.1 = varName).map (·.2) with
                    | some vm => if vm.format.isEmpty then "%@".toList else vm.format
                    | none => "%@".toList)
              []))
        []) := by
    simp only [pluralWithMetaToXcstrings, hne, Bool.false_eq_true, if_false, hparse]
    rfl
  rw [hstep]
  congr 1
  have hfun : (fun (acc : List (Str × Str)) (fe : Str × List Elem) =>
      upsert acc (rekeyBack fe.1)
        (fe.2.foldl
          (fun t e =>
            match e with
            | Elem.lit s => t ++ s
            | Elem.pound =>
              t ++
                match (metaVariables data).find? fun nv => nv.2.role = .plural with
                | some nv => if nv.2.format.isEmpty then "%lld".toList else nv.2.format
                | none => "%lld".toList
            | Elem.arg varName =>
              t ++
                match ((metaVariables data).find? fun nv => nv.1 = varName).map (·.2) with
                | some vm => if vm.format.isEmpty then "%@".toList else vm.format
                | none => "%@".toList)
          [])) =
      fun acc fe => upsert acc (rekeyBack fe.1)
        (renderBodySpec (metaVariables data) fe.2) := by
    funext acc fe
    rw [renderFold_eq (metaVariables data) fe.2 []]
    rfl
  rw [hfun]

theorem form_roundtrip (refSpecs : List SpecMatch)
    (hhd : ∀ m ∈ refSpecs, ∃ t, m.full = '%' :: t)
    (v : Str)
    (hv : ∀ c ∈ v, c ≠ '{' ∧ c ≠ '}' ∧ c ≠ '#')
    (htake : specsOf v = refSpecs.take (specsOf v).length) :
    parseFormText (substBody (buildVariables refSpecs) v) =
      .ok (elemsOf (buildVariables refSpecs) v) ∧
    renderBodySpec (buildVariables refSpecs) (elemsOf (buildVariables refSpecs) v) = v := by
  have hlits : ∀ c, Piece.lit c ∈ scanSpecs v → c ≠ '{' ∧ c ≠ '}' ∧ c ≠ '#' :=
    fun c hc => hv c (scanSpecsF_lit_mem v.length v c hc)
  have hspec : ∀ ps1 m ps2, scanSpecs v = ps1 ++ Piece.spec m :: ps2 →
      SlotRender (buildVariables refSpecs) (0 + specPieces ps1) m := by
    intro ps1 m ps2 hps
    have hg := specsOf_get_of_decomp hps
    rw [Nat.zero_add]
    exact slotRender_aligned refSpecs hhd (specsOf v) htake (specPieces ps1) m hg
  obtain ⟨es, hok, hrender⟩ := parseFormTextF_subst (buildVariables refSpecs) (scanSpecs v)
    0 [] ((substBodyGo (buildVariables refSpecs) 0 (scanSpecs v)).length + 1)
    (Nat.le_refl _) hlits hspec
  have hpft : parseFormText (substBody (buildVariables refSpecs) v) = .ok es := hok
  have helems : elemsOf (buildVariables refSpecs) v = es := by
    unfold elemsOf
    rw [hpft]
  rw [hpft, helems]
  refine ⟨rfl, ?_⟩
  rw [hrender, List.nil_append]
  exact scanSpecs_flatten v

theorem chunkList_body (refSpecs : List SpecMatch)
    (hhd : ∀ m ∈ refSpecs, ∃ t, m.full = '%' :: t)
    (v : Str)
    (hv : ∀ c ∈ v, c ≠ '{' ∧ c ≠ '}' ∧ c ≠ '#')
    (htake : specsOf v = refSpecs.take (specsOf v).length) :
    ChunkList (substBody (buildVariables refSpecs) v) := by
  apply chunkList_substBodyGo
  · intro c hc
    have := hv c (scanSpecsF_lit_mem v.length v c hc)
    exact ⟨this.1, this.2.1⟩
  · intro ps1 m ps2 hps
    have hg := specsOf_get_of_decomp hps
    rw [Nat.zero_add]
    exact slotRender_aligned refSpecs hhd (specsOf v) htake (specPieces ps1) m hg

/-- **C1 (amended).** For a non-empty CLDR form map with distinct category
keys, whose values avoid `{`, `}`, `#` and line terminators, and whose
per-form specifier lists are prefixes of the reference form's specifier list,
the inverse conversion applied to the forward conversion reproduces the form
map exactly. -/
theorem plural_round_trip
    (forms : List (Str × Str)) (required : List Str)
    (h1 : forms ≠ [])
    (h2 : ∀ ft ∈ forms, ft.1 ∈ cldrPluralCategories)
    (h3 : (forms.map Prod.fst).Nodup)
    (h4 : ∀ ft ∈ forms, ∀ c ∈ ft.2, (c ≠ '{' ∧ c ≠ '}' ∧ c ≠ '#') ∧ isLineTerm c = false)
    (h5 : ∀ ft ∈ forms, specsOf ft.2 = (refFold forms).1.take (specsOf ft.2).length) :
    (xcstringsToPluralWithMeta forms required).bind pluralWithMetaToXcstrings =
      .ok forms := by
  have hhd : ∀ m ∈ (refFold forms).1, ∃ t, m.full = '%' :: t := by
    intro m hm
    rw [refFold_fst forms] at hm
    exact specsOf_head hm
  have hfr : ∀ ft ∈ forms,
      parseFormText (substBody (buildVariables (refFold forms).1) ft.2) =
        .ok (elemsOf (buildVariables (refFold forms).1) ft.2) ∧
      renderBodySpec (buildVariables (refFold forms).1)
        (elemsOf (buildVariables (refFold forms).1) ft.2) = ft.2 :=
    fun ft hft => form_roundtrip (refFold forms).1 hhd ft.2
      (fun c hc => (h4 ft hft c hc).1) (h5 ft hft)
  have hchunks : ∀ ft ∈ forms, ChunkList (substBody (buildVariables (refFold forms).1) ft.2) :=
    fun ft hft => chunkList_body (refFold forms).1 hhd ft.2
      (fun c hc => (h4 ft hft c hc).1) (h5 ft hft)
  have hkeys : ∀ ft ∈ forms, KeyOkP (formKeyFor required ft.1) :=
    fun ft hft => formKeyFor_keyOk required ft.1 (h2 ft hft)
  have hK2 : ∀ ft ∈ forms, rekeyBack (formKeyFor required ft.1) = ft.1 :=
    fun ft hft => rekeyBack_formKeyFor required ft.1 (h2 ft hft)
  have hXchars : ∀ c ∈ entriesStr required (buildVariables (refFold forms).1) forms,
      isLineTerm c = false :=
    entriesStr_chars required (refFold forms).1 forms h2
      (fun ft hft c hc => (h4 ft hft c hc).2)
  have hXlen : forms.length ≤
      (entriesStr required (buildVariables (refFold forms).1) forms).length := by
    unfold entriesStr
    have := intercalate_length_ge
      (forms.map (entryOf required (buildVariables (refFold forms).1)))
      (by
        intro e he
        rcases List.mem_map.mp he with ⟨ft, _, rfl⟩
        exact entryOf_ne_nil _ _ _)
    simpa using this
  obtain ⟨f0, rest, rfl⟩ : ∃ f r, forms = f :: r := by
    cases forms with
    | nil => exact absurd rfl h1
    | cons a b => exact ⟨a, b, rfl⟩
  obtain ⟨hXne, hXhead⟩ := entriesStr_head required
    (buildVariables (refFold (f0 :: rest)).1) f0 rest (hkeys f0 (List.mem_cons_self _ _))
  have hopts := parseFormsF_entries "count".toList
    (entriesStr required (buildVariables (refFold (f0 :: rest)).1) (f0 :: rest)) required
    (buildVariables (refFold (f0 :: rest)).1) (f0 :: rest) hkeys hchunks
    (fun ft hft => ⟨elemsOf (buildVariables (refFold (f0 :: rest)).1) ft.2, (hfr ft hft).1⟩)
    ((entriesStr required (buildVariables (refFold (f0 :: rest)).1) (f0 :: rest)).length + 1)
    (by omega) [] [] (Or.inl rfl)
  rw [List.nil_append] at hopts
  have hparse := parseICU_forms
    (entriesStr required (buildVariables (refFold (f0 :: rest)).1) (f0 :: rest))
    hXne hXchars hXhead _ hopts
  have hfwd : xcstringsToPluralWithMeta (f0 :: rest) required =
      .ok ⟨'{' :: ("count".toList ++ ", plural, ".toList ++
          icuFormsOf required (buildVariables (refFold (f0 :: rest)).1) (f0 :: rest) ++ ['}']),
        if (buildVariables (refFold (f0 :: rest)).1).isEmpty then none
        else some (buildVariables (refFold (f0 :: rest)).1)⟩ := by
    unfold xcstringsToPluralWithMeta
    rw [if_neg (by simp)]
    dsimp only
    rw [pluralVarName_count]
  rw [hfwd]
  show pluralWithMetaToXcstrings
    ⟨'{' :: ("count".toList ++ ", plural, ".toList ++
        icuFormsOf required (buildVariables (refFold (f0 :: rest)).1) (f0 :: rest) ++ ['}']),
      if (buildVariables (refFold (f0 :: rest)).1).isEmpty then none
      else some (buildVariables (refFold (f0 :: rest)).1)⟩ = .ok (f0 :: rest)
  rw [icuFormsOf_eq_entriesStr]
  have hres := pluralInverse_ok
    ⟨'{' :: ("count".toList ++ ", plural, ".toList ++
        entriesStr required (buildVariables (refFold (f0 :: rest)).1) (f0 :: rest) ++ ['}']),
      if (buildVariables (refFold (f0 :: rest)).1).isEmpty then none
      else some (buildVariables (refFold (f0 :: rest)).1)⟩
    ⟨"count".toList, (f0 :: rest).foldl
      (fun a f => upsert a (formKeyFor required f.1)
        (elemsOf (buildVariables (refFold (f0 :: rest)).1) f.2)) []⟩
    hparse rfl
  rw [hres, metaVariables_mk]
  have hNodupK : ((f0 :: rest).map (fun f => formKeyFor required f.1)).Nodup := by
    apply List.Nodup.of_map rekeyBack
    rw [List.map_map]
    have hmapeq : (f0 :: rest).map (rekeyBack ∘ fun f => formKeyFor required f.1) =
        (f0 :: rest).map Prod.fst :=
      List.map_congr_left (fun ft hft => hK2 ft hft)
    rw [hmapeq]
    exact h3
  have hopts_map : (f0 :: rest).foldl
      (fun a f => upsert a (formKeyFor required f.1)
        (elemsOf (buildVariables (refFold (f0 :: rest)).1) f.2)) [] =
      (f0 :: rest).map (fun f => (formKeyFor required f.1,
        elemsOf (buildVariables (refFold (f0 :: rest)).1) f.2)) := by
    have := foldl_upsert_append (fun f => formKeyFor required f.1)
      (fun f => elemsOf (buildVariables (refFold (f0 :: rest)).1) f.2)
      (f0 :: rest) [] hNodupK (by intro f _ hm; simp at hm)
    simpa using this
  rw [hopts_map, List.foldl_map]
  show Except.ok ((f0 :: rest).foldl
      (fun acc ft => upsert acc (rekeyBack (formKeyFor required ft.1))
        (renderBodySpec (buildVariables (refFold (f0 :: rest)).1)
          (elemsOf (buildVariables (refFold (f0 :: rest)).1) ft.2))) []) =
    .ok (f0 :: rest)
  have hNodupK2 : ((f0 :: rest).map
      (fun ft => rekeyBack (formKeyFor required ft.1))).Nodup := by
    have hmapeq : (f0 :: rest).map (fun ft => rekeyBack (formKeyFor required ft.1)) =
        (f0 :: rest).map Prod.fst :=
      List.map_congr_left (fun ft hft => hK2 ft hft)
    rw [hmapeq]
    exact h3
  have hfold := foldl_upsert_append (fun ft => rekeyBack (formKeyFor required ft.1))
    (fun ft => renderBodySpec (buildVariables (refFold (f0 :: rest)).1)
      (elemsOf (buildVariables (refFold (f0 :: rest)).1) ft.2))
    (f0 :: rest) [] hNodupK2 (by intro f _ hm; simp at hm)
  rw [hfold, List.nil_append]
  have hid : (f0 :: rest).map (fun ft => (rekeyBack (formKeyFor required ft.1),
      renderBodySpec (buildVariables (refFold (f0 :: rest)).1)
        (elemsOf (buildVariables (refFold (f0 :: rest)).1) ft.2))) =
      (f0 :: rest).map (fun ft => ft) := by
    apply List.map_congr_left
    intro ft hft
    rw [hK2 ft hft, (hfr ft hft).2]
  rw [hid, List.map_id']

/-- The literal claim fails: a round trip that preserves the category set and
every per-form specifier count can still change a form (`%@` under a `%d`
reference slot comes back as `%d`). -/
theorem plural_round_trip_not_exact :
    (xcstringsToPluralWithMeta [("one".toList, "%d".toList), ("other".toList, "%@".toList)]
        ["one".toList, "other".toList]).bind pluralWithMetaToXcstrings =
      .ok [("one".toList, "%d".toList), ("other".toList, "%d".toList)] ∧
    List.map Prod.fst [("one".toList, "%d".toList), ("other".toList, "%d".toList)] =
      List.map Prod.fst [("one".toList, "%d".toList), ("other".toList, "%@".toList)] ∧
    List.map (fun ft => (specsOf ft.2).length)
        [("one".toList, "%d".toList), ("other".toList, "%d".toList)] =
      List.map (fun ft => (specsOf ft.2).length)
        [("one".toList, "%d".toList), ("other".toList, "%@".toList)] ∧
    [("one".toList, "%d".toList), ("other".toList, "%d".toList)] ≠
      [("one".toList, "%d".toList), ("other".toList, "%@".toList)] := by
  refine ⟨by decide, by decide, by decide, by decide⟩

theorem plural_round_trip_witness :
    ([("one".toList, "1 item".toList), ("other".toList, "%d items".toList)] :
        List (Str × Str)) ≠ [] ∧
    (xcstringsToPluralWithMeta
        [("one".toList, "1 item".toList), ("other".toList, "%d items".toList)]
        ["one".toList, "other".toList]).bind pluralWithMetaToXcstrings =
      .ok [("one".toList, "1 item".toList), ("other".toList, "%d items".toList)] :=
  ⟨by decide,
    plural_round_trip
      [("one".toList, "1 item".toList), ("other".toList, "%d items".toList)]
      ["one".toList, "other".toList]
      (by decide) (by decide) (by decide) (by decide) (by decide)⟩

end LingoDev
